import Mathlib

/-!
Verification of the memory-operation optimizer of the HotSpot C2 compiler
(`src/hotspot/share/opto/memnode.cpp`), via a shallow embedding in Lean 4.

Each section embeds one component of the source file: the store-to-load
forwarding walk (`MemNode::find_previous_store`), the memory-state merge node
(`MergeMemNode`), the value-forwarding query (`MemNode::can_see_stored_value`)
together with `LoadNode::Identity` and the narrow-load `Value` functions, the
object-initialization capture machinery (`InitializeNode`), the adjacent-store
merger (`MergePrimitiveStores`), and the value-numbering interface of stores
(`StoreNode::hash` / `StoreNode::cmp`).

Node graphs are modelled by total functions from node ids (natural numbers) to
node descriptions.  Queries answered by collaborators that live outside
`memnode.cpp` (the type system, `PhaseGVN::transform`, control-flow dominance
over the full node graph, `MemPointer` adjacency) appear as explicit oracle
parameters; each such parameter is documented at its declaration.
-/

/-! ## Section F: value numbering of stores (`StoreNode::hash`, `StoreNode::cmp`)

Source: memnode.cpp lines 2732-2739 and 3585-3590. -/

/-- Modelled from the spec: the `NO_HASH` sentinel of the node base class
(`node.hpp`, not under `src/`): a node whose `hash()` is `NO_HASH` is never
entered into the global-value-numbering hash table. -/
def NO_HASH : Nat := 0

/-- `StoreNode::hash`: stores are not commoned, so they do not hash
(they return the `NO_HASH` sentinel). -/
def StoreNode_hash (_s : Nat) : Nat := NO_HASH

/-- `StoreNode::cmp`: always fail except on self (`&n == this`).
Nodes are identified by their ids. -/
def StoreNode_cmp (thisId otherId : Nat) : Bool := otherId = thisId

/-- Modelled from the spec: the global-value-numbering hash table (the
"graph worklist/transform driver" collaborator) identifies two distinct nodes
exactly when they have equal hashes different from the `NO_HASH` sentinel and
`cmp` accepts the pair. -/
def gvn_identifies (hash : Nat → Nat) (cmp : Nat → Nat → Bool) (a b : Nat) : Bool :=
  a ≠ b && hash a ≠ NO_HASH && hash a = hash b && cmp a b

/-! ## Section E: the adjacent-store merger (`MergePrimitiveStores`)

Source: memnode.cpp lines 2894-2937 (`run`) and 3189-3224
(`collect_merge_list`). -/

/-- Environment of one `MergePrimitiveStores` run.  `memory_size` is
`_store->memory_size()` (1, 2 or 4 bytes, established by the `StoreB/C/I`
opcode check in `run`).  `find_adjacent_def_store` answers, for a store node id,
the adjacent def store found below it together with the `found_range_check`
flag of the returned `Status`; its internals (`MemPointer` parsing and
adjacency, `cfg_status_for_pair`) live outside `memnode.cpp` and are therefore
an oracle here. -/
structure MPSEnv where
  memory_size : Nat
  find_adjacent_def_store : Nat → Option (Nat × Bool)

/-- HotSpot `round_down_power_of_2`: the largest power of two that is at most
`n` (for `n ≥ 1`). -/
def round_down_power_of_2 (n : Nat) : Nat := 2 ^ Nat.log2 n

/-- The traversal loop of `collect_merge_list`: walk up the chain of adjacent
def stores, pushing each found store, stopping when no adjacent def store is
found, when the maximal size is reached, or after the first range check.
The fuel argument bounds the recursion; `collect_merge_list` passes enough
fuel that it never runs out (each iteration grows the list, and the loop stops
at `merge_list_max_size` elements). -/
def collect_go (env : MPSEnv) (maxSize : Nat) : Nat → List Nat → Nat → List Nat
  | 0, acc, _ => acc
  | fuel + 1, acc, current =>
    if acc.length < maxSize then
      match env.find_adjacent_def_store current with
      | none => acc
      | some (next, rc) =>
        if rc then acc ++ [next]
        else collect_go env maxSize fuel (acc ++ [next]) next
    else acc

/-- `MergePrimitiveStores::collect_merge_list`: collect the chain of adjacent
def stores starting at `storeId` (capped at `8 / memory_size` stores, since the
merged store is at most 8 bytes), then truncate the list to a power of two by
popping from the end. -/
def collect_merge_list (env : MPSEnv) (storeId : Nat) : List Nat :=
  let maxSize := 8 / env.memory_size
  let collected := collect_go env maxSize maxSize [storeId] storeId
  collected.take (round_down_power_of_2 collected.length)

/-- The list collected before truncation (used to state how the truncated list
relates to the group that was found). -/
def collected_group (env : MPSEnv) (storeId : Nat) : List Nat :=
  let maxSize := 8 / env.memory_size
  collect_go env maxSize maxSize [storeId] storeId

theorem collect_go_length_le (env : MPSEnv) (maxSize : Nat) :
    ∀ fuel acc cur, acc.length ≤ maxSize →
      (collect_go env maxSize fuel acc cur).length ≤ maxSize := by
  intro fuel
  induction fuel with
  | zero => intro acc cur h; simpa [collect_go] using h
  | succ f ih =>
    intro acc cur h
    simp only [collect_go]
    split
    · rename_i hlt
      cases hfind : env.find_adjacent_def_store cur with
      | none => simpa using h
      | some p =>
        cases p with
        | mk next rc =>
          simp only
          split
          · simpa using hlt
          · exact ih (acc ++ [next]) next (by simpa using hlt)
    · exact h

theorem collect_go_length_ge (env : MPSEnv) (maxSize : Nat) :
    ∀ fuel acc cur, acc.length ≤ (collect_go env maxSize fuel acc cur).length := by
  intro fuel
  induction fuel with
  | zero => intro acc cur; simp [collect_go]
  | succ f ih =>
    intro acc cur
    simp only [collect_go]
    split
    · cases hfind : env.find_adjacent_def_store cur with
      | none => simp
      | some p =>
        cases p with
        | mk next rc =>
          simp only
          split
          · simp
          · calc acc.length ≤ (acc ++ [next]).length := by simp
              _ ≤ _ := ih (acc ++ [next]) next
    · exact Nat.le_refl _

theorem collected_group_two_le (env : MPSEnv) (sid : Nat)
    (hmax : 2 ≤ 8 / env.memory_size)
    (hdef : (env.find_adjacent_def_store sid).isSome) :
    2 ≤ (collected_group env sid).length := by
  unfold collected_group
  obtain ⟨p, hp⟩ := Option.isSome_iff_exists.mp hdef
  obtain ⟨next, rc⟩ := p
  generalize hM : 8 / env.memory_size = M at hmax ⊢
  obtain ⟨f, hf⟩ : ∃ f, M = f + 1 := ⟨M - 1, by omega⟩
  subst hf
  simp only [collect_go, hp, List.length_cons, List.length_nil]
  rw [if_pos (by omega)]
  split
  · simp
  · calc (2 : Nat) = ([sid] ++ [next]).length := by simp
      _ ≤ _ := collect_go_length_ge env (f + 1) f ([sid] ++ [next]) next

theorem collected_group_le_max (env : MPSEnv) (sid : Nat)
    (hmax : 1 ≤ 8 / env.memory_size) :
    (collected_group env sid).length ≤ 8 / env.memory_size := by
  unfold collected_group
  exact collect_go_length_le env _ _ [sid] sid (by simpa using hmax)

theorem round_down_power_of_2_le (n : Nat) (h : 1 ≤ n) :
    round_down_power_of_2 n ≤ n := by
  unfold round_down_power_of_2
  rw [Nat.log2_eq_log_two]
  exact Nat.pow_log_le_self 2 (by omega)

theorem round_down_power_of_2_two_le (n : Nat) (h : 2 ≤ n) :
    2 ≤ round_down_power_of_2 n := by
  unfold round_down_power_of_2
  rw [Nat.log2_eq_log_two]
  calc (2 : Nat) = 2 ^ 1 := rfl
    _ ≤ 2 ^ Nat.log 2 n := Nat.pow_le_pow_right (by omega) (Nat.log_pos (by omega) h)

/-- C9: whenever the adjacent-store merger replaces a chain of adjacent narrow
stores with one wider store, the number of stores merged equals the size of the
collected adjacent group rounded down to the nearest power of two, is at least
2, and the combined width never exceeds 8 bytes (at most `8 / memory_size`
stores are collected). -/
theorem c9_merge_list_sizing (env : MPSEnv) (sid : Nat)
    (hms : env.memory_size = 1 ∨ env.memory_size = 2 ∨ env.memory_size = 4)
    (hdef : (env.find_adjacent_def_store sid).isSome) :
    (collect_merge_list env sid).length
        = round_down_power_of_2 (collected_group env sid).length ∧
    2 ≤ (collect_merge_list env sid).length ∧
    (collect_merge_list env sid).length ≤ 8 / env.memory_size ∧
    (collect_merge_list env sid).length * env.memory_size ≤ 8 := by
  have hmax : 2 ≤ 8 / env.memory_size := by
    rcases hms with h | h | h <;> simp [h]
  have h2 : 2 ≤ (collected_group env sid).length :=
    collected_group_two_le env sid hmax hdef
  have hub : (collected_group env sid).length ≤ 8 / env.memory_size :=
    collected_group_le_max env sid (by omega)
  have hlen : (collect_merge_list env sid).length
      = round_down_power_of_2 (collected_group env sid).length := by
    show ((collected_group env sid).take _).length = _
    rw [List.length_take]
    exact Nat.min_eq_left (round_down_power_of_2_le ((collected_group env sid).length) (by omega))
  refine ⟨hlen, ?_, ?_, ?_⟩
  · rw [hlen]; exact round_down_power_of_2_two_le _ h2
  · rw [hlen]
    calc round_down_power_of_2 (collected_group env sid).length
        ≤ (collected_group env sid).length := round_down_power_of_2_le ((collected_group env sid).length) (by omega)
      _ ≤ 8 / env.memory_size := hub
  · have : (collect_merge_list env sid).length ≤ 8 / env.memory_size := by
      rw [hlen]
      calc round_down_power_of_2 (collected_group env sid).length
          ≤ (collected_group env sid).length := round_down_power_of_2_le ((collected_group env sid).length) (by omega)
        _ ≤ 8 / env.memory_size := hub
    calc (collect_merge_list env sid).length * env.memory_size
        ≤ (8 / env.memory_size) * env.memory_size :=
          Nat.mul_le_mul_right _ this
      _ ≤ 8 := Nat.div_mul_le_self 8 env.memory_size

/-- Witness for C9: a concrete run merging four adjacent byte stores out of a
collected group of five. -/
theorem c9_merge_list_sizing_witness :
    (collect_merge_list ⟨1, fun n => if n < 5 then some (n + 1, false) else none⟩ 0).length
        = round_down_power_of_2
            (collected_group ⟨1, fun n => if n < 5 then some (n + 1, false) else none⟩ 0).length ∧
    2 ≤ (collect_merge_list ⟨1, fun n => if n < 5 then some (n + 1, false) else none⟩ 0).length ∧
    (collect_merge_list ⟨1, fun n => if n < 5 then some (n + 1, false) else none⟩ 0).length ≤ 8 / 1 ∧
    (collect_merge_list ⟨1, fun n => if n < 5 then some (n + 1, false) else none⟩ 0).length * 1 ≤ 8 :=
  c9_merge_list_sizing ⟨1, fun n => if n < 5 then some (n + 1, false) else none⟩ 0
    (Or.inl rfl) (by decide)

/-- C10: two distinct Store nodes are never identified with each other by
global value numbering: `StoreNode::hash` returns the no-hash sentinel,
`StoreNode::cmp` returns true only when a store is compared with itself, and
hence the hash-consing table never identifies a store with another node. -/
theorem c10_stores_not_value_numbered :
    ∀ a b : Nat,
      StoreNode_hash a = NO_HASH ∧
      (StoreNode_cmp a b = true ↔ b = a) ∧
      gvn_identifies StoreNode_hash StoreNode_cmp a b = false := by
  intro a b
  refine ⟨rfl, ?_, ?_⟩
  · simp [StoreNode_cmp]
  · simp [gvn_identifies, StoreNode_hash]

/-! ## Section A: the forwarding walk (`MemNode::find_previous_store`)

Source: memnode.cpp lines 552-570 (`detect_ptr_independence`) and 686-833
(`find_previous_store`).  The memory-predecessor chain is a total function from
node ids to node descriptions.  Pointer nodes (bases) are plain ids; the
information the walk extracts from them (`is_Con`,
`AllocateNode::Ideal_allocation`, `all_controls_dominate`) is given by graph
functions: `Ideal_allocation` is defined in `callnode.cpp` and
`all_controls_dominate` is a dominance search over the full control graph,
both outside the memory chain modelled here. -/

/-- A store as seen by the walk: the decomposed address
(`AddPNode::Ideal_base_and_offset` result: base pointer node and constant
offset, `none` offset meaning `Type::OffsetBot`), the store width in bytes,
and whether `check_if_adr_maybe_raw` holds of its address. -/
structure AStore where
  base : Option Nat
  offset : Option Int
  size : Nat
  maybeRaw : Bool
deriving DecidableEq, Repr

/-- One node of the memory-predecessor chain, as classified by the branches of
`find_previous_store`:
* `store`: a Store node (with its predecessor memory edge);
* `initProj`: a memory projection of an InitializeNode (its allocation, or
  `none` when `allocation()` degenerated; the raw and per-slice predecessor
  memory edges used to step over it);
* `acProj`: a memory state for which `find_previous_arraycopy` finds an
  arraycopy, which either must have affected the access (cases a/b of that
  function) or is skipped to its memory input (case c);
* `callProj`: a projection of a call, with the verdict of the collaborator
  query `CallNode::may_modify` on the access's address type;
* `membarProj`: a projection of a memory barrier, with the verdict of
  `ArrayCopyNode::may_modify`;
* `clearArr`: a ClearArray node, with the verdict and resulting memory of
  `ClearArrayNode::step_through`;
* `mergeMem`: a memory merge, with its slice for the access's alias index;
* `other`: any other (inscrutable) memory state. -/
inductive ANode where
  | store (s : AStore) (prev : Nat)
  | initProj (alloc : Option Nat) (prevRaw : Nat) (prevSlice : Nat)
  | acProj (affects : Bool) (prev : Nat)
  | callProj (mayModify : Bool) (prev : Nat)
  | membarProj (acMayModify : Bool) (prev : Nat)
  | clearArr (stepOk : Bool) (next : Nat)
  | mergeMem (memAt : Nat)
  | other
deriving DecidableEq, Repr

/-- The memory graph together with the pointer-level facts consulted by the
walk.  `conPtr p` is `p->is_Con()`; `allocOf p` is
`AllocateNode::Ideal_allocation(p)` (the allocation producing pointer `p`, if
any); `dom p a` is `all_controls_dominate(p, a)` (every control input of `p`
dominates allocation `a`); `maxStore` is `MAX2(BytesPerLong, MaxVectorSize)`.
`allocOf`, `dom` and `conPtr` abstract collaborators defined outside the
memory-chain model (callnode.cpp and the control-graph dominance walk). -/
structure AGraph where
  node : Nat → ANode
  conPtr : Nat → Bool
  allocOf : Nat → Option Nat
  dom : Nat → Nat → Bool
  maxStore : Nat

/-- The memory access performing the walk: its decomposed address (`base`,
`offset`), its width `size` in bytes, `maybeRaw` (`check_if_adr_maybe_raw` of
its address), whether its address type is a known instance field, whether its
alias index is the raw index, `domThis a` (`all_controls_dominate(this, a)`),
and its memory input `memIn`. -/
structure AQuery where
  base : Nat
  offset : Option Int
  size : Nat
  maybeRaw : Bool
  knownInstance : Bool
  aliasIsRaw : Bool
  domThis : Nat → Bool
  memIn : Nat

/-- `MemNode::detect_ptr_independence`: prove that two base pointers (with
their allocations, previously discovered by the caller) are never equal:
both non-allocations must be distinct constants; both allocations must be
distinct; for one allocation, the other pointer's controls must dominate it. -/
def detect_ptr_independence (g : AGraph) (p1 : Nat) (a1 : Option Nat)
    (p2 : Nat) (a2 : Option Nat) : Bool :=
  match a1, a2 with
  | none, none => p1 ≠ p2 && g.conPtr p1 && g.conPtr p2
  | some x, some y => x ≠ y
  | some x, none => g.dom p2 x
  | none, some y => g.dom p1 y

/-- Result of one iteration of the walk's loop body: either step to the next
memory state (`continue`), or leave the loop with a final answer (`return mem`
inside the loop, or `break` followed by `return nullptr`). -/
inductive AStep where
  | cont (next : Nat)
  | ret (r : Option Nat)
deriving Repr

/-- The tail of the Store branch of the loop body, after the offset-disjointness
test has failed to fire: try `detect_ptr_independence` on distinct bases, then
the exact base-and-offset match, otherwise fall through to the bottom `break`. -/
def fps_store_tail (g : AGraph) (q : AQuery) (mem : Nat) (s : AStore) (sb : Nat)
    (prev : Nat) : AStep :=
  if sb ≠ q.base &&
      detect_ptr_independence g q.base (g.allocOf q.base) sb (g.allocOf sb) then
    AStep.cont prev
  else if sb = q.base && s.offset = q.offset then
    AStep.ret (some mem)
  else
    AStep.ret none

/-- One iteration of the loop body of `find_previous_store`, for the current
memory state `mem`, given that the access's own offset is the constant `qoff`
(the `Type::OffsetBot` case returns before the loop). -/
def fps_step (g : AGraph) (q : AQuery) (qoff : Int) (mem : Nat) : AStep :=
  match g.node mem with
  | ANode.store s prev =>
    match s.base with
    | none => AStep.ret none
    | some sb =>
      if (q.maybeRaw || s.maybeRaw) && sb ≠ q.base then AStep.ret none
      else
        match s.offset with
        | some so =>
          if so ≠ qoff &&
              (qoff + q.size ≤ so || so ≤ qoff - g.maxStore || so ≤ qoff - s.size) then
            AStep.cont prev
          else fps_store_tail g q mem s sb prev
        | none => fps_store_tail g q mem s sb prev
  | ANode.initProj stAlloc prevRaw prevSlice =>
    match stAlloc with
    | none => AStep.ret none
    | some sa =>
      match g.allocOf q.base with
      | some a =>
        if a = sa then AStep.ret (some mem)
        else AStep.cont (if q.aliasIsRaw then prevRaw else prevSlice)
      | none =>
        if q.domThis sa then AStep.cont (if q.aliasIsRaw then prevRaw else prevSlice)
        else AStep.ret none
  | ANode.acProj affects prev =>
    if affects then AStep.ret (some mem) else AStep.cont prev
  | ANode.callProj mayModify prev =>
    if q.knownInstance && !mayModify then AStep.cont prev else AStep.ret none
  | ANode.membarProj acMayModify prev =>
    if q.knownInstance then
      (if acMayModify then AStep.ret none else AStep.cont prev)
    else AStep.ret none
  | ANode.clearArr stepOk next =>
    if q.knownInstance then
      (if stepOk then AStep.cont next else AStep.ret (some mem))
    else AStep.ret none
  | ANode.mergeMem memAt =>
    if q.knownInstance then AStep.cont memAt else AStep.ret none
  | ANode.other => AStep.ret none

/-- The loop of `find_previous_store`: dance past unrelated stores, with the
`cnt` cycle limiter as fuel (`--cnt < 0` breaks out and returns null). -/
def fps_loop (g : AGraph) (q : AQuery) (qoff : Int) : Nat → Nat → Option Nat
  | 0, _ => none
  | fuel + 1, mem =>
    match fps_step g q qoff mem with
    | AStep.cont next => fps_loop g q qoff fuel next
    | AStep.ret r => r

/-- `MemNode::find_previous_store`: return null when the access has no precise
constant offset, otherwise run the loop starting from the memory input with the
cycle limiter `cnt = 50`. -/
def find_previous_store (g : AGraph) (q : AQuery) : Option Nat :=
  match q.offset with
  | none => none
  | some qoff => fps_loop g q qoff 50 q.memIn

/-- Instrumented version of the loop that also records the memory states the
walk stepped past (one list entry per `continue`).  Its result component is
proved to agree with `fps_loop`. -/
def fps_loop_trace (g : AGraph) (q : AQuery) (qoff : Int) :
    Nat → Nat → Option Nat × List Nat
  | 0, _ => (none, [])
  | fuel + 1, mem =>
    match fps_step g q qoff mem with
    | AStep.cont next =>
      let r := fps_loop_trace g q qoff fuel next
      (r.1, mem :: r.2)
    | AStep.ret r => (r, [])

/-- The memory states stepped past by `find_previous_store` (empty when the
offset is `Type::OffsetBot`). -/
def fps_skipped (g : AGraph) (q : AQuery) : List Nat :=
  match q.offset with
  | none => []
  | some qoff => (fps_loop_trace g q qoff 50 q.memIn).2

theorem fps_loop_trace_fst (g : AGraph) (q : AQuery) (qoff : Int) :
    ∀ fuel mem, (fps_loop_trace g q qoff fuel mem).1 = fps_loop g q qoff fuel mem := by
  intro fuel
  induction fuel with
  | zero => intro mem; rfl
  | succ f ih =>
    intro mem
    simp only [fps_loop_trace, fps_loop]
    cases fps_step g q qoff mem with
    | cont next => simpa using ih next
    | ret r => rfl

theorem fps_loop_trace_length (g : AGraph) (q : AQuery) (qoff : Int) :
    ∀ fuel mem, (fps_loop_trace g q qoff fuel mem).2.length ≤ fuel := by
  intro fuel
  induction fuel with
  | zero => intro mem; simp [fps_loop_trace]
  | succ f ih =>
    intro mem
    simp only [fps_loop_trace]
    cases fps_step g q qoff mem with
    | cont next =>
      simpa using Nat.succ_le_succ (ih next)
    | ret r => simp

/-- A store skipped over by the walk is proven independent of the access by one
of the two tests the loop body actually applies: provably disjoint constant
offset ranges, or `detect_ptr_independence` on distinct bases. -/
def store_skip_justified (g : AGraph) (q : AQuery) (qoff : Int) (s : AStore) : Prop :=
  (∃ so, s.offset = some so ∧ so ≠ qoff ∧
    (qoff + (q.size : Int) ≤ so ∨ so ≤ qoff - (g.maxStore : Int) ∨
      so ≤ qoff - (s.size : Int))) ∨
  (∃ sb, s.base = some sb ∧ sb ≠ q.base ∧
    detect_ptr_independence g q.base (g.allocOf q.base) sb (g.allocOf sb) = true)

theorem fps_step_cont_store_justified (g : AGraph) (q : AQuery) (qoff : Int)
    (mem : Nat) (s : AStore) (prev next : Nat)
    (hnode : g.node mem = ANode.store s prev)
    (hstep : fps_step g q qoff mem = AStep.cont next) :
    store_skip_justified g q qoff s := by
  simp only [fps_step, hnode] at hstep
  split at hstep
  · exact absurd hstep (by simp)
  · rename_i sb hb
    split at hstep
    · exact absurd hstep (by simp)
    · split at hstep
      · rename_i so ho
        split at hstep
        · rename_i hdisj
          left
          simp only [Bool.and_eq_true, Bool.or_eq_true, decide_eq_true_eq] at hdisj
          exact ⟨so, ho, hdisj.1, by tauto⟩
        · simp only [fps_store_tail] at hstep
          split at hstep
          · rename_i hind
            right
            simp only [Bool.and_eq_true, decide_eq_true_eq] at hind
            exact ⟨sb, hb, hind.1, hind.2⟩
          · split at hstep <;> exact absurd hstep (by simp)
      · simp only [fps_store_tail] at hstep
        split at hstep
        · rename_i hind
          right
          simp only [Bool.and_eq_true, decide_eq_true_eq] at hind
          exact ⟨sb, hb, hind.1, hind.2⟩
        · split at hstep <;> exact absurd hstep (by simp)

theorem fps_step_ret_store_exact (g : AGraph) (q : AQuery) (qoff : Int)
    (mem : Nat) (s : AStore) (prev : Nat)
    (hnode : g.node mem = ANode.store s prev)
    (hstep : fps_step g q qoff mem = AStep.ret (some mem)) :
    s.base = some q.base ∧ s.offset = q.offset := by
  simp only [fps_step, hnode] at hstep
  split at hstep
  · rename_i hb; exact absurd hstep (by simp)
  · rename_i sb hb
    split at hstep
    · exact absurd hstep (by simp)
    · split at hstep
      · rename_i so ho
        split at hstep
        · exact absurd hstep (by simp)
        · simp only [fps_store_tail] at hstep
          split at hstep
          · exact absurd hstep (by simp)
          · split at hstep
            · rename_i hexact
              simp only [Bool.and_eq_true, decide_eq_true_eq] at hexact
              exact ⟨by rw [hb, hexact.1], hexact.2⟩
            · exact absurd hstep (by simp)
      · simp only [fps_store_tail] at hstep
        split at hstep
        · exact absurd hstep (by simp)
        · split at hstep
          · rename_i hexact
            simp only [Bool.and_eq_true, decide_eq_true_eq] at hexact
            exact ⟨by rw [hb, hexact.1], hexact.2⟩
          · exact absurd hstep (by simp)

theorem fps_step_ret_some_eq (g : AGraph) (q : AQuery) (qoff : Int)
    (mem r : Nat) (hstep : fps_step g q qoff mem = AStep.ret (some r)) :
    r = mem := by
  unfold fps_step at hstep
  cases hn : g.node mem <;> simp only [hn] at hstep <;>
    repeat first
      | (simp only [fps_store_tail] at hstep)
      | (split at hstep)
      | (simp at hstep; try exact hstep.symm)

theorem fps_loop_ret_store_exact (g : AGraph) (q : AQuery) (qoff : Int) :
    ∀ fuel mem r s prev,
      fps_loop g q qoff fuel mem = some r → g.node r = ANode.store s prev →
      s.base = some q.base ∧ s.offset = q.offset := by
  intro fuel
  induction fuel with
  | zero => intro mem r s prev h; exact absurd h (by simp [fps_loop])
  | succ f ih =>
    intro mem r s prev h hnode
    simp only [fps_loop] at h
    cases hs : fps_step g q qoff mem with
    | cont next =>
      simp only [hs] at h
      exact ih next r s prev h hnode
    | ret r0 =>
      simp only [hs] at h
      subst h
      have hr : r = mem := fps_step_ret_some_eq g q qoff mem r hs
      subst hr
      exact fps_step_ret_store_exact g q qoff r s prev hnode hs

theorem fps_trace_skipped_store_justified (g : AGraph) (q : AQuery) (qoff : Int) :
    ∀ fuel mem m s prev,
      m ∈ (fps_loop_trace g q qoff fuel mem).2 → g.node m = ANode.store s prev →
      store_skip_justified g q qoff s := by
  intro fuel
  induction fuel with
  | zero => intro mem m s prev h; exact absurd h (by simp [fps_loop_trace])
  | succ f ih =>
    intro mem m s prev h hnode
    simp only [fps_loop_trace] at h
    cases hs : fps_step g q qoff mem with
    | cont next =>
      simp only [hs, List.mem_cons] at h
      cases h with
      | inl hm =>
        subst hm
        exact fps_step_cont_store_justified g q qoff m s prev next hnode hs
      | inr hm => exact ih next m s prev hm hnode
    | ret r0 =>
      simp only [hs] at h
      exact absurd h (by simp)

theorem fps_step_ret_initProj (g : AGraph) (q : AQuery) (qoff : Int)
    (mem : Nat) (al : Option Nat) (prevRaw prevSlice : Nat)
    (hnode : g.node mem = ANode.initProj al prevRaw prevSlice)
    (hstep : fps_step g q qoff mem = AStep.ret (some mem)) :
    al ≠ none ∧ al = g.allocOf q.base := by
  simp only [fps_step, hnode] at hstep
  cases al with
  | none => exact absurd hstep (by simp)
  | some sa =>
    cases ha : g.allocOf q.base with
    | none =>
      simp only [ha] at hstep
      by_cases hd : q.domThis sa
      · rw [if_pos hd] at hstep
        exact absurd hstep (by simp)
      · rw [if_neg hd] at hstep
        exact absurd hstep (by simp)
    | some a =>
      simp only [ha] at hstep
      by_cases haa : a = sa
      · rw [if_pos haa] at hstep
        exact ⟨by simp, by rw [haa]⟩
      · rw [if_neg haa] at hstep
        exact absurd hstep (by simp)

theorem fps_loop_ret_step (g : AGraph) (q : AQuery) (qoff : Int) :
    ∀ fuel mem r, fps_loop g q qoff fuel mem = some r →
      fps_step g q qoff r = AStep.ret (some r) := by
  intro fuel
  induction fuel with
  | zero => intro mem r h; exact absurd h (by simp [fps_loop])
  | succ f ih =>
    intro mem r h
    simp only [fps_loop] at h
    cases hs : fps_step g q qoff mem with
    | cont next =>
      simp only [hs] at h
      exact ih next r h
    | ret r0 =>
      simp only [hs] at h
      subst h
      have hr : r = mem := fps_step_ret_some_eq g q qoff mem r hs
      subst hr
      exact hs

/-- C1 (amended): if the walk answers with a Store node, that store's address
has exactly the access's base and constant offset; every store the walk
stepped past satisfies one of the two independence proofs the loop actually
applies (disjoint constant offset ranges, or `detect_ptr_independence` on
distinct bases); and when the walk answers with an Initialize projection, it
is the initialization of the access's own allocation. -/
theorem c1_forwarding_walk_soundness :
    (∀ (g : AGraph) (q : AQuery) (r : Nat) (s : AStore) (prev : Nat),
        find_previous_store g q = some r → g.node r = ANode.store s prev →
        s.base = some q.base ∧ s.offset = q.offset) ∧
    (∀ (g : AGraph) (q : AQuery) (qoff : Int) (m : Nat) (s : AStore) (prev : Nat),
        q.offset = some qoff → m ∈ fps_skipped g q →
        g.node m = ANode.store s prev → store_skip_justified g q qoff s) ∧
    (∀ (g : AGraph) (q : AQuery) (r : Nat) (al : Option Nat) (prevRaw prevSlice : Nat),
        find_previous_store g q = some r →
        g.node r = ANode.initProj al prevRaw prevSlice →
        al ≠ none ∧ al = g.allocOf q.base) := by
  refine ⟨?_, ?_, ?_⟩
  · intro g q r s prev h hnode
    unfold find_previous_store at h
    cases hq : q.offset with
    | none =>
      simp only [hq] at h
      exact absurd h (by simp)
    | some qoff =>
      simp only [hq] at h
      have hconc := fps_loop_ret_store_exact g q qoff 50 q.memIn r s prev h hnode
      exact ⟨hconc.1, hq ▸ hconc.2⟩
  · intro g q qoff m s prev hq hm hnode
    unfold fps_skipped at hm
    simp only [hq] at hm
    exact fps_trace_skipped_store_justified g q qoff 50 q.memIn m s prev hm hnode
  · intro g q r al prevRaw prevSlice h hnode
    unfold find_previous_store at h
    cases hq : q.offset with
    | none =>
      simp only [hq] at h
      exact absurd h (by simp)
    | some qoff =>
      simp only [hq] at h
      exact fps_step_ret_initProj g q qoff r al prevRaw prevSlice hnode
        (fps_loop_ret_step g q qoff 50 q.memIn r h)

/-- The first store of the witness graph for C1: independent of the access by
disjoint constant offsets. -/
def c1w_s0 : AStore := ⟨some 3, some 16, 4, false⟩

/-- The second store of the witness graph for C1: the exact match. -/
def c1w_s1 : AStore := ⟨some 2, some 0, 4, false⟩

/-- The witness graph for C1: a disjoint store followed by the exact defining
store. -/
def c1w_g : AGraph :=
  ⟨fun n => if n = 0 then ANode.store c1w_s0 1
            else if n = 1 then ANode.store c1w_s1 99
            else ANode.other,
   fun _ => false, fun _ => none, fun _ _ => false, 8⟩

/-- The witness access for C1. -/
def c1w_q : AQuery := ⟨2, some 0, 4, false, false, false, fun _ => false, 0⟩

/-- Second counterexample graph for C1: the memory input is the projection of
the initialization of the very allocation the access reads; the walk returns
it, a non-null answer that is not a Store node. -/
def c1c_gY : AGraph :=
  ⟨fun n => if n = 0 then ANode.initProj (some 9) 1 1 else ANode.other,
   fun _ => false, fun p => if p = 8 then some 9 else none, fun _ _ => false, 8⟩

/-- The access of the second counterexample graph for C1. -/
def c1c_qY : AQuery := ⟨8, some 0, 4, false, false, false, fun _ => false, 0⟩

/-- Witness for C1 (amended): on the witness graph the walk skips the disjoint
store and answers with the exact match; on the initialization graph the
projection answer belongs to the access's own allocation. -/
theorem c1_forwarding_walk_soundness_witness :
    (c1w_s1.base = some c1w_q.base ∧ c1w_s1.offset = c1w_q.offset) ∧
    store_skip_justified c1w_g c1w_q 0 c1w_s0 ∧
    ((some 9 : Option Nat) ≠ none ∧
      (some 9 : Option Nat) = c1c_gY.allocOf c1c_qY.base) :=
  ⟨c1_forwarding_walk_soundness.1 c1w_g c1w_q 1 c1w_s1 99 (by decide) (by decide),
   c1_forwarding_walk_soundness.2.1 c1w_g c1w_q 0 0 c1w_s0 1 rfl (by decide) (by decide),
   c1_forwarding_walk_soundness.2.2 c1c_gY c1c_qY 0 (some 9) 1 1 (by decide) (by decide)⟩

/-- The claim's own notion of a justified skip, following the specification's
words only: disjoint constant offset ranges at the same base, or provably
distinct allocation bases.  (To be compared with `store_skip_justified`, which
follows the code.) -/
def spec_claimed_skip_ok (g : AGraph) (q : AQuery) (qoff : Int) (s : AStore) : Prop :=
  (s.base = some q.base ∧ ∃ so, s.offset = some so ∧ so ≠ qoff ∧
    (qoff + (q.size : Int) ≤ so ∨ so ≤ qoff - (g.maxStore : Int) ∨
      so ≤ qoff - (s.size : Int))) ∨
  (∃ sb a1 a2, s.base = some sb ∧ g.allocOf q.base = some a1 ∧
    g.allocOf sb = some a2 ∧ a1 ≠ a2)

/-- The store of the first counterexample graph for C1: same constant offset as
the access, but at a provably different constant base. -/
def c1c_s : AStore := ⟨some 7, some 4, 4, false⟩

/-- First counterexample graph for C1: the walk skips a store whose
independence is proven by distinct constant bases (not by disjoint offsets at
the same base, and not by distinct allocations). -/
def c1c_gX : AGraph :=
  ⟨fun n => if n = 0 then ANode.store c1c_s 1 else ANode.other,
   fun p => p = 7 || p = 8, fun _ => none, fun _ _ => false, 8⟩

/-- The access of the first counterexample graph for C1. -/
def c1c_qX : AQuery := ⟨8, some 4, 4, false, false, false, fun _ => false, 0⟩

/-- Counterexample for C1: (i) the walk skips a store that is independent only
because both bases are distinct constants, which is neither of the claim's two
stated reasons; (ii) the walk can return a non-null answer that is not a Store
node (the projection of the initialization of the accessed allocation), instead
of returning null in every non-exact-match case. -/
theorem c1_forwarding_walk_counterexample :
    (0 ∈ fps_skipped c1c_gX c1c_qX ∧ c1c_gX.node 0 = ANode.store c1c_s 1 ∧
      ¬ spec_claimed_skip_ok c1c_gX c1c_qX 4 c1c_s) ∧
    (find_previous_store c1c_gY c1c_qY = some 0 ∧
      ∀ s prev, c1c_gY.node 0 ≠ ANode.store s prev) := by
  refine ⟨⟨by decide, by decide, ?_⟩, by decide, ?_⟩
  · rintro (⟨hb, _⟩ | ⟨sb, a1, a2, _, h2, _⟩)
    · exact absurd hb (by decide)
    · simp [c1c_gX, c1c_qX] at h2
  · intro s prev h
    exact absurd h (by simp [c1c_gY])

/-- The cyclic graph used to exhibit termination of the walk on a cycle: a
single store whose memory predecessor is itself, provably independent of the
access by disjoint offsets, so the walk keeps stepping until the cycle limiter
runs out. -/
def c7_gCyc : AGraph :=
  ⟨fun _ => ANode.store ⟨some 1, some 100, 4, false⟩ 0,
   fun _ => false, fun _ => none, fun _ _ => false, 8⟩

/-- The access used on the cyclic graph for C7. -/
def c7_qCyc : AQuery := ⟨1, some 0, 4, false, false, false, fun _ => false, 0⟩

/-- C7: the forwarding walk is defined through the `cnt = 50` cycle limiter:
with the limiter exhausted it returns null ("no answer"); it examines at most
`cnt` memory-chain nodes; `find_previous_store` is exactly the loop run with
`cnt = 50`; and on a concrete graph whose memory chain is a cycle it
terminates with null. -/
theorem c7_walk_bounded_termination :
    (∀ (g : AGraph) (q : AQuery) (qoff : Int) (mem : Nat),
        fps_loop g q qoff 0 mem = none) ∧
    (∀ (g : AGraph) (q : AQuery), (fps_skipped g q).length ≤ 50) ∧
    (∀ (g : AGraph) (q : AQuery),
        find_previous_store g q =
          match q.offset with
          | none => none
          | some qoff => fps_loop g q qoff 50 q.memIn) ∧
    find_previous_store c7_gCyc c7_qCyc = none := by
  refine ⟨fun g q qoff mem => rfl, ?_, fun g q => rfl, by decide⟩
  intro g q
  unfold fps_skipped
  cases hq : q.offset with
  | none => simp
  | some qoff => exact fps_loop_trace_length g q qoff 50 q.memIn

/-! ## Section B: the memory-state merge (`MergeMemNode`)

Source: memnode.cpp lines 5576-5957.  A MergeMem node is its list of inputs
(by node id); input 0 is the unused control slot, input 1 (`AliasIdxTop`) the
empty-memory sentinel, input 2 (`AliasIdxBot`) the base (wide) memory, and
inputs from 3 (`AliasIdxRaw`) up the narrow slices.  The empty-memory sentinel
is the compilation-wide top node, a fixed id of the graph.  Reading an input
beyond `req()` yields the sentinel, which matches `memory_at`'s treatment of
the sparse array. -/

/-- The inputs of one MergeMem node. -/
structure MMData where
  ins : List Nat
deriving DecidableEq, Repr

/-- `Compile::AliasIdxBot`: the index of the base (wide) memory input. -/
def aliasIdxBot : Nat := 2

/-- `Compile::AliasIdxRaw`: the first narrow-slice index. -/
def aliasIdxRaw : Nat := 3

/-- The surrounding graph: which node ids are MergeMem nodes (and their
inputs), the id of the empty-memory sentinel (`Compile::current()->top()`),
and the verdict of `phase->transform` on a MergeMem base (whether the
transformed base rolls up to top or to a merge with dead base, lines
5734-5743).  `transform_rolls_up_dead` is an oracle: `PhaseGVN::transform`
lives in phaseX.cpp, outside `src/`; it is modelled from the spec as the
worklist-driven transform collaborator. -/
structure BGraph where
  mm : Nat → Option MMData
  emptyId : Nat
  transform_rolls_up_dead : Nat → Bool

/-- `in(i)` of a MergeMem, with reads beyond `req()` yielding the sentinel. -/
def mmIn (g : BGraph) (d : MMData) (i : Nat) : Nat :=
  d.ins.getD i g.emptyId

/-- `MergeMemNode::base_memory`: the distinguished wide input `in(AliasIdxBot)`. -/
def base_memory (g : BGraph) (d : MMData) : Nat := mmIn g d aliasIdxBot

/-- `MergeMemNode::memory_at`: the memory state for an alias index: the stored
slice if present and not the sentinel, else the base memory. -/
def memory_at (g : BGraph) (d : MMData) (i : Nat) : Nat :=
  let n := mmIn g d i
  if n = g.emptyId then base_memory g d else n

/-- `set_req(i, v)` on the input list. -/
def mmSetIn (d : MMData) (i : Nat) (v : Nat) : MMData := ⟨d.ins.set i v⟩

/-- `MergeMemNode::set_memory_at`: collapse the default (a slice equal to the
base memory becomes the sentinel), grow the sparse array only when storing a
non-default value, then store. -/
def set_memory_at (g : BGraph) (d : MMData) (alias_idx : Nat) (n : Nat) : MMData :=
  let n' := if n = base_memory g d then g.emptyId else n
  if d.ins.length < alias_idx + 1 then
    if n' = g.emptyId then d
    else mmSetIn ⟨d.ins ++ List.replicate (alias_idx + 1 - d.ins.length) g.emptyId⟩
      alias_idx n'
  else mmSetIn d alias_idx n'

/-- `MergeMemNode::verify_sparse`: no stored slice may repeat the base memory
(vacuous when the base is the sentinel). -/
def verify_sparse (g : BGraph) (d : MMData) : Bool :=
  let base := base_memory g d
  if base = g.emptyId then true
  else (List.range d.ins.length).all fun i => i < aliasIdxRaw || mmIn g d i ≠ base

/-- `MergeMemNode::grow_to_match`: find the finite support of the other merge
(the largest index holding a non-sentinel input, scanning downward while the
index is at least our `req()`) and pad our inputs with the sentinel up to it. -/
def gtm_scan (g : BGraph) (other : MMData) (lo : Nat) : Nat → Nat
  | 0 => lo
  | i + 1 =>
    if i + 1 ≤ lo then lo
    else if mmIn g other i ≠ g.emptyId then i + 1
    else gtm_scan g other lo i

/-- `grow_to_match` itself: pad with the sentinel up to the scanned length. -/
def grow_to_match (g : BGraph) (d : MMData) (other : MMData) : MMData :=
  let target := gtm_scan g other d.ins.length other.ins.length
  ⟨d.ins ++ List.replicate (target - d.ins.length) g.emptyId⟩

/-- The per-slice computation of `MergeMemNode::Ideal` (lines 5672-5718): the
old memory value (empty slots fall through to the old base), resliced through a
stacked MergeMem (with the self-loop special case), and stored back relative to
the new base. -/
def ideal_slice_new (g : BGraph) (selfId old_base new_base : Nat) (i : Nat)
    (old_in : Nat) : Nat :=
  let old_mem := if old_in = g.emptyId then old_base else old_in
  let new_mem :=
    if old_mem = selfId then
      (if new_base = selfId ∨ new_base = g.emptyId then g.emptyId else new_base)
    else
      match g.mm old_mem with
      | some mmem => memory_at g mmem i
      | none => old_mem
  if new_mem = new_base then g.emptyId else new_mem

/-- The slice loop of `MergeMemNode::Ideal`: rewrite every input from
`AliasIdxRaw` up, reporting progress when any input changed.  `i` is the index
of the head of the remaining input list. -/
def ideal_slices (g : BGraph) (selfId old_base new_base : Nat) :
    Nat → List Nat → List Nat × Bool
  | _, [] => ([], false)
  | i, old_in :: rest =>
    let r := ideal_slices g selfId old_base new_base (i + 1) rest
    if i < aliasIdxRaw then (old_in :: r.1, r.2)
    else
      let new_in := ideal_slice_new g selfId old_base new_base i old_in
      (new_in :: r.1, r.2 || new_in ≠ old_in)

/-- The slice-clearing loop of lines 5749-5753 (parse-time only): cut all
narrow inputs to the sentinel. -/
def clear_slices (g : BGraph) (d : MMData) : MMData :=
  ⟨d.ins.mapIdx fun i v => if i < aliasIdxRaw then v else g.emptyId⟩

/-- Lines 5647-5656 of `MergeMemNode::Ideal`: the base, viewed as a MergeMem
when it is one (including the degenerate case of a base pointing back at the
node itself). -/
def ideal_mbase (g : BGraph) (selfId : Nat) (d0 : MMData) : Option MMData :=
  if base_memory g d0 = selfId then some d0 else g.mm (base_memory g d0)

/-- Lines 5657-5660: the new base (one level of base stacking removed). -/
def ideal_new_base (g : BGraph) (selfId : Nat) (d0 : MMData) : Nat :=
  match ideal_mbase g selfId d0 with
  | some mb => base_memory g mb
  | none => base_memory g d0

/-- Line 5663: the node grown to cover the slices of a stacked base. -/
def ideal_d1 (g : BGraph) (selfId : Nat) (d0 : MMData) : MMData :=
  match ideal_mbase g selfId d0 with
  | some mb => grow_to_match g d0 mb
  | none => d0

/-- Lines 5672-5718: the rewritten slice inputs and the slice-loop progress. -/
def ideal_sl (g : BGraph) (selfId : Nat) (d0 : MMData) : List Nat × Bool :=
  ideal_slices g selfId (base_memory g d0) (ideal_new_base g selfId d0) 0
    (ideal_d1 g selfId d0).ins

/-- Lines 5720-5725: store the new base, reporting progress if it changed
(combined with the slice-loop progress). -/
def ideal_d3p (g : BGraph) (selfId : Nat) (d0 : MMData) : MMData × Bool :=
  if ideal_new_base g selfId d0 ≠ base_memory g d0 then
    (mmSetIn ⟨(ideal_sl g selfId d0).1⟩ aliasIdxBot (ideal_new_base g selfId d0), true)
  else (⟨(ideal_sl g selfId d0).1⟩, (ideal_sl g selfId d0).2)

/-- Lines 5727-5730: a self cycle at the base indicates a dead memory path. -/
def ideal_d4 (g : BGraph) (selfId : Nat) (d0 : MMData) : MMData :=
  if base_memory g (ideal_d3p g selfId d0).1 = selfId then
    mmSetIn (ideal_d3p g selfId d0).1 aliasIdxBot g.emptyId
  else (ideal_d3p g selfId d0).1

/-- Lines 5732-5743: resolve external cycles by transforming a MergeMem base;
if the transform rolls it up to a dead cycle, propagate the rollup. -/
def ideal_d5 (g : BGraph) (selfId : Nat) (d0 : MMData) : MMData :=
  let b4 := base_memory g (ideal_d4 g selfId d0)
  if (b4 = selfId || (g.mm b4).isSome) && g.transform_rolls_up_dead b4 then
    mmSetIn (ideal_d4 g selfId d0) aliasIdxBot g.emptyId
  else ideal_d4 g selfId d0

/-- `MergeMemNode::Ideal`: remove chained MergeMems.  Returns the rewritten
inputs of the node together with the progress report (`true` exactly when a
non-null progress node is returned).  The node's own id is `selfId`; other
MergeMem nodes are read from the graph.  The body is lines 5647-5754, split
into the staged helper definitions above; a dead memory path (sentinel base)
returns no progress at once (line 5650), and a base that became the sentinel
reports progress and, during parsing only, cuts all slice inputs
(lines 5745-5754). -/
def MergeMem_Ideal (g : BGraph) (can_reshape : Bool) (selfId : Nat)
    (d0 : MMData) : MMData × Bool :=
  if base_memory g d0 = g.emptyId then (d0, false)
  else
    let d5 := ideal_d5 g selfId d0
    if base_memory g d5 = g.emptyId then
      (if can_reshape then d5 else clear_slices g d5, true)
    else (d5, (ideal_d3p g selfId d0).2)

theorem getD_replicate_self (e : Nat) : ∀ (k m : Nat), (List.replicate k e).getD m e = e := by
  intro k
  induction k with
  | zero => intro m; simp [List.getD]
  | succ k ih =>
    intro m
    cases m with
    | zero => simp [List.replicate_succ]
    | succ m => simp [List.replicate_succ, ih m]

theorem mmIn_pad (g : BGraph) (l : List Nat) (k i : Nat) :
    mmIn g ⟨l ++ List.replicate k g.emptyId⟩ i = mmIn g ⟨l⟩ i := by
  show (l ++ List.replicate k g.emptyId).getD i g.emptyId = l.getD i g.emptyId
  by_cases h : i < l.length
  · rw [List.getD_append _ _ _ _ h]
  · rw [List.getD_append_right _ _ _ _ (by omega), List.getD_eq_default l g.emptyId (by omega)]
    exact getD_replicate_self g.emptyId _ _

theorem ideal_slices_length (g : BGraph) (selfId old_base new_base : Nat) :
    ∀ (l : List Nat) (i : Nat),
      (ideal_slices g selfId old_base new_base i l).1.length = l.length := by
  intro l
  induction l with
  | nil => intro i; rfl
  | cons a rest ih =>
    intro i
    simp only [ideal_slices]
    split <;> simp [ih (i + 1)]

theorem ideal_slices_fst_of_no_progress (g : BGraph) (selfId old_base new_base : Nat) :
    ∀ (l : List Nat) (i : Nat),
      (ideal_slices g selfId old_base new_base i l).2 = false →
      (ideal_slices g selfId old_base new_base i l).1 = l := by
  intro l
  induction l with
  | nil => intro i _; rfl
  | cons a rest ih =>
    intro i h
    by_cases hlt : i < aliasIdxRaw
    · simp only [ideal_slices, if_pos hlt] at h ⊢
      rw [ih (i + 1) h]
    · simp only [ideal_slices, if_neg hlt] at h ⊢
      simp only [Bool.or_eq_false_iff, decide_eq_false_iff_not, not_not] at h
      rw [h.2, ih (i + 1) h.1]

theorem ideal_slices_no_progress_fixed (g : BGraph) (selfId old_base new_base : Nat) :
    ∀ (l : List Nat) (i j : Nat),
      (ideal_slices g selfId old_base new_base i l).2 = false →
      aliasIdxRaw ≤ i + j → j < l.length →
      ideal_slice_new g selfId old_base new_base (i + j)
          (l.getD j g.emptyId) = l.getD j g.emptyId := by
  intro l
  induction l with
  | nil => intro i j _ _ h; simp at h
  | cons a rest ih =>
    intro i j h hge hlen
    have hrec : (ideal_slices g selfId old_base new_base (i + 1) rest).2 = false := by
      by_cases hlt : i < aliasIdxRaw
      · simpa only [ideal_slices, if_pos hlt] using h
      · simp only [ideal_slices, if_neg hlt, Bool.or_eq_false_iff] at h
        exact h.1
    cases j with
    | zero =>
      have hlt : ¬ i < aliasIdxRaw := by omega
      simp only [ideal_slices, if_neg hlt, Bool.or_eq_false_iff,
        decide_eq_false_iff_not, not_not] at h
      simpa using h.2
    | succ j' =>
      have := ih (i + 1) j' hrec (by omega) (by simpa using hlen)
      simpa [Nat.add_assoc, Nat.add_comm 1 j'] using this

theorem ideal_slices_progress_ne (g : BGraph) (selfId old_base new_base : Nat) :
    ∀ (l : List Nat) (i : Nat),
      (ideal_slices g selfId old_base new_base i l).2 = true →
      ∃ j, j < l.length ∧
        (ideal_slices g selfId old_base new_base i l).1.getD j g.emptyId
          ≠ l.getD j g.emptyId := by
  intro l
  induction l with
  | nil => intro i h; simp [ideal_slices] at h
  | cons a rest ih =>
    intro i h
    by_cases hlt : i < aliasIdxRaw
    · simp only [ideal_slices, if_pos hlt] at h ⊢
      obtain ⟨j, hj, hne⟩ := ih (i + 1) h
      exact ⟨j + 1, by simpa using Nat.succ_lt_succ hj, by simpa using hne⟩
    · simp only [ideal_slices, if_neg hlt, Bool.or_eq_true] at h ⊢
      by_cases hne : ideal_slice_new g selfId old_base new_base i a = a
      · have hrec : (ideal_slices g selfId old_base new_base (i + 1) rest).2 = true := by
          rcases h with h | h
          · exact h
          · simp only [decide_eq_true_eq] at h; exact absurd hne h
        obtain ⟨j, hj, hne2⟩ := ih (i + 1) hrec
        exact ⟨j + 1, by simpa using Nat.succ_lt_succ hj, by simpa using hne2⟩
      · exact ⟨0, by simp, by simpa using hne⟩

theorem ideal_slices_keeps_low (g : BGraph) (selfId old_base new_base : Nat) :
    ∀ (l : List Nat) (i j : Nat), i + j < aliasIdxRaw →
      (ideal_slices g selfId old_base new_base i l).1.getD j g.emptyId
        = l.getD j g.emptyId := by
  intro l
  induction l with
  | nil => intro i j _; rfl
  | cons a rest ih =>
    intro i j hlow
    have hlt : i < aliasIdxRaw := by omega
    simp only [ideal_slices, if_pos hlt]
    cases j with
    | zero => simp
    | succ j' => simpa using ih (i + 1) j' (by omega)

theorem getD_set_self (l : List Nat) (i v d : Nat) (h : i < l.length) :
    (l.set i v).getD i d = v := by
  rw [List.getD_eq_getElem _ _ (by simpa using h)]
  exact List.getElem_set_self _

theorem getD_set_ne (l : List Nat) (i j v d : Nat) (h : i ≠ j) :
    (l.set i v).getD j d = l.getD j d := by
  by_cases hj : j < l.length
  · rw [List.getD_eq_getElem _ _ (by simpa using hj), List.getD_eq_getElem _ _ hj]
    exact List.getElem_set_ne h _
  · rw [List.getD_eq_default _ _ (by simpa using hj), List.getD_eq_default _ _ (by omega)]

theorem len3_of_base_ne_empty (g : BGraph) (d : MMData)
    (h : base_memory g d ≠ g.emptyId) : 3 ≤ d.ins.length := by
  by_contra hlt
  exact h (by
    unfold base_memory mmIn aliasIdxBot
    exact List.getD_eq_default _ _ (by omega))

theorem base_mmSetIn_bot (g : BGraph) (d : MMData) (v : Nat)
    (h : 3 ≤ d.ins.length) :
    base_memory g (mmSetIn d aliasIdxBot v) = v := by
  unfold base_memory mmIn mmSetIn aliasIdxBot
  exact getD_set_self _ _ _ _ (by omega)

theorem mmIn_clear_slices_low (g : BGraph) (d : MMData) (i : Nat)
    (h : i < aliasIdxRaw) :
    mmIn g (clear_slices g d) i = mmIn g d i := by
  unfold clear_slices mmIn
  by_cases hi : i < d.ins.length
  · rw [List.getD_eq_getElem _ _ (by simpa using hi), List.getD_eq_getElem _ _ hi]
    rw [List.getElem_mapIdx]
    simp [h]
  · rw [List.getD_eq_default _ _ (by simpa using hi), List.getD_eq_default _ _ (by omega)]

theorem ideal_d1_pad (g : BGraph) (selfId : Nat) (d0 : MMData) :
    ∃ k, (ideal_d1 g selfId d0).ins = d0.ins ++ List.replicate k g.emptyId := by
  unfold ideal_d1
  cases ideal_mbase g selfId d0 with
  | none => exact ⟨0, by simp⟩
  | some mb => exact ⟨_, rfl⟩

theorem mmIn_ideal_d1 (g : BGraph) (selfId : Nat) (d0 : MMData) (i : Nat) :
    mmIn g (ideal_d1 g selfId d0) i = mmIn g d0 i := by
  obtain ⟨k, hk⟩ := ideal_d1_pad g selfId d0
  calc mmIn g (ideal_d1 g selfId d0) i
      = mmIn g ⟨d0.ins ++ List.replicate k g.emptyId⟩ i := by
        unfold mmIn; rw [hk]
    _ = mmIn g d0 i := mmIn_pad g d0.ins k i

theorem ideal_d1_len (g : BGraph) (selfId : Nat) (d0 : MMData) :
    d0.ins.length ≤ (ideal_d1 g selfId d0).ins.length := by
  obtain ⟨k, hk⟩ := ideal_d1_pad g selfId d0
  rw [hk]; simp

theorem ideal_sl_len (g : BGraph) (selfId : Nat) (d0 : MMData) :
    (ideal_sl g selfId d0).1.length = (ideal_d1 g selfId d0).ins.length := by
  unfold ideal_sl
  exact ideal_slices_length g selfId _ _ _ 0

theorem ideal_d3p_len (g : BGraph) (selfId : Nat) (d0 : MMData) :
    (ideal_d3p g selfId d0).1.ins.length = (ideal_sl g selfId d0).1.length := by
  unfold ideal_d3p
  split <;> simp [mmSetIn]

theorem mmSetIn_len (d : MMData) (i v : Nat) :
    (mmSetIn d i v).ins.length = d.ins.length := by
  simp [mmSetIn]

theorem ideal_d4_len (g : BGraph) (selfId : Nat) (d0 : MMData) :
    (ideal_d4 g selfId d0).ins.length = (ideal_d3p g selfId d0).1.ins.length := by
  unfold ideal_d4
  split <;> simp [mmSetIn]

theorem ideal_d5_collapse (g : BGraph) (selfId : Nat) (d0 : MMData)
    (hlen : 3 ≤ (ideal_d3p g selfId d0).1.ins.length)
    (hc : base_memory g (ideal_d5 g selfId d0) ≠ g.emptyId) :
    ideal_d5 g selfId d0 = (ideal_d3p g selfId d0).1 ∧
    base_memory g (ideal_d3p g selfId d0).1 ≠ selfId := by
  have hlen4 : 3 ≤ (ideal_d4 g selfId d0).ins.length := by
    rw [ideal_d4_len]; exact hlen
  by_cases hs : base_memory g (ideal_d3p g selfId d0).1 = selfId
  · exfalso
    apply hc
    have hb4 : base_memory g (ideal_d4 g selfId d0) = g.emptyId := by
      unfold ideal_d4
      rw [if_pos hs]
      exact base_mmSetIn_bot g _ _ hlen
    by_cases hroll : ((base_memory g (ideal_d4 g selfId d0) = selfId ||
        (g.mm (base_memory g (ideal_d4 g selfId d0))).isSome) &&
        g.transform_rolls_up_dead (base_memory g (ideal_d4 g selfId d0))) = true
    · have h5 : ideal_d5 g selfId d0 =
          mmSetIn (ideal_d4 g selfId d0) aliasIdxBot g.emptyId := by
        simp only [ideal_d5]
        rw [if_pos hroll]
      rw [h5]
      exact base_mmSetIn_bot g _ _ hlen4
    · have h5 : ideal_d5 g selfId d0 = ideal_d4 g selfId d0 := by
        simp only [ideal_d5]
        rw [if_neg hroll]
      rw [h5]
      exact hb4
  · have h4 : ideal_d4 g selfId d0 = (ideal_d3p g selfId d0).1 := by
      unfold ideal_d4
      rw [if_neg hs]
    refine ⟨?_, hs⟩
    by_cases hroll : ((base_memory g (ideal_d4 g selfId d0) = selfId ||
        (g.mm (base_memory g (ideal_d4 g selfId d0))).isSome) &&
        g.transform_rolls_up_dead (base_memory g (ideal_d4 g selfId d0))) = true
    · exfalso
      apply hc
      have h5 : ideal_d5 g selfId d0 =
          mmSetIn (ideal_d4 g selfId d0) aliasIdxBot g.emptyId := by
        simp only [ideal_d5]
        rw [if_pos hroll]
      rw [h5]
      exact base_mmSetIn_bot g _ _ hlen4
    · have h5 : ideal_d5 g selfId d0 = ideal_d4 g selfId d0 := by
        simp only [ideal_d5]
        rw [if_neg hroll]
      rw [h5, h4]

theorem ideal_no_progress_main (g : BGraph) (cr : Bool) (selfId : Nat) (d0 : MMData)
    (hob : base_memory g d0 ≠ g.emptyId)
    (h : (MergeMem_Ideal g cr selfId d0).2 = false) :
    (MergeMem_Ideal g cr selfId d0).1 = ideal_d1 g selfId d0 ∧
    ideal_new_base g selfId d0 = base_memory g d0 ∧
    (ideal_sl g selfId d0).2 = false ∧
    base_memory g d0 ≠ selfId := by
  have hMI : MergeMem_Ideal g cr selfId d0 =
      (if base_memory g (ideal_d5 g selfId d0) = g.emptyId then
        (if cr then ideal_d5 g selfId d0 else clear_slices g (ideal_d5 g selfId d0),
          true)
      else (ideal_d5 g selfId d0, (ideal_d3p g selfId d0).2)) := by
    simp only [MergeMem_Ideal]
    rw [if_neg hob]
  by_cases hc : base_memory g (ideal_d5 g selfId d0) = g.emptyId
  · rw [hMI, if_pos hc] at h
    exact absurd h (by simp)
  · rw [hMI, if_neg hc] at h
    simp only at h
    by_cases hnb : ideal_new_base g selfId d0 ≠ base_memory g d0
    · have : (ideal_d3p g selfId d0).2 = true := by
        unfold ideal_d3p; rw [if_pos hnb]
      rw [this] at h
      exact absurd h (by simp)
    · have hnbe : ideal_new_base g selfId d0 = base_memory g d0 := not_ne_iff.mp hnb
      have hd3p : ideal_d3p g selfId d0 =
          (⟨(ideal_sl g selfId d0).1⟩, (ideal_sl g selfId d0).2) := by
        unfold ideal_d3p; rw [if_neg hnb]
      rw [hd3p] at h
      simp only at h
      have hfst : (ideal_sl g selfId d0).1 = (ideal_d1 g selfId d0).ins := by
        unfold ideal_sl at h ⊢
        exact ideal_slices_fst_of_no_progress g selfId _ _ _ 0 h
      have hd3p1 : (ideal_d3p g selfId d0).1 = ideal_d1 g selfId d0 := by
        rw [hd3p]
        simp only
        rw [hfst]
      have hbase1 : base_memory g (ideal_d1 g selfId d0) = base_memory g d0 :=
        mmIn_ideal_d1 g selfId d0 aliasIdxBot
      have hlen : 3 ≤ (ideal_d3p g selfId d0).1.ins.length := by
        rw [hd3p1]
        calc (3 : Nat) ≤ d0.ins.length := len3_of_base_ne_empty g d0 hob
          _ ≤ (ideal_d1 g selfId d0).ins.length := ideal_d1_len g selfId d0
      obtain ⟨h5eq, hself⟩ := ideal_d5_collapse g selfId d0 hlen hc
      refine ⟨?_, hnbe, h, ?_⟩
      · rw [hMI, if_neg hc]
        simp only
        rw [h5eq, hd3p1]
      · rw [hd3p1, hbase1] at hself
        exact hself

theorem ideal_no_progress_sparse (g : BGraph) (cr : Bool) (selfId : Nat)
    (d0 : MMData) (h : (MergeMem_Ideal g cr selfId d0).2 = false) :
    verify_sparse g (MergeMem_Ideal g cr selfId d0).1 = true := by
  by_cases hob : base_memory g d0 = g.emptyId
  · have hMI : MergeMem_Ideal g cr selfId d0 = (d0, false) := by
      simp only [MergeMem_Ideal]
      rw [if_pos hob]
    rw [hMI]
    unfold verify_sparse
    rw [if_pos hob]
  · obtain ⟨hres, hnbe, hsl, hself⟩ := ideal_no_progress_main g cr selfId d0 hob h
    rw [hres]
    unfold verify_sparse
    have hbase1 : base_memory g (ideal_d1 g selfId d0) = base_memory g d0 :=
      mmIn_ideal_d1 g selfId d0 aliasIdxBot
    rw [hbase1, if_neg hob]
    rw [List.all_eq_true]
    intro i hi
    rw [List.mem_range] at hi
    by_cases hlow : i < aliasIdxRaw
    · simp [hlow]
    · simp only [Bool.or_eq_true, decide_eq_true_eq]
      right
      intro heq
      have hfix := ideal_slices_no_progress_fixed g selfId (base_memory g d0)
        (ideal_new_base g selfId d0) (ideal_d1 g selfId d0).ins 0 i
        (by unfold ideal_sl at hsl; exact hsl) (by omega) hi
      simp only [Nat.zero_add] at hfix
      have hv : (ideal_d1 g selfId d0).ins.getD i g.emptyId = base_memory g d0 := heq
      rw [hv] at hfix
      simp only [ideal_slice_new, if_neg hob, if_neg hself, hnbe] at hfix
      cases hmm : g.mm (base_memory g d0) with
      | none =>
        rw [hmm] at hfix
        simp only [if_pos rfl] at hfix
        exact hob hfix.symm
      | some mb =>
        rw [hmm] at hfix
        simp only at hfix
        by_cases hmem : memory_at g mb i = base_memory g d0
        · rw [if_pos hmem] at hfix
          exact hob hfix.symm
        · rw [if_neg hmem] at hfix
          exact hmem hfix

theorem ideal_no_progress_pointwise (g : BGraph) (cr : Bool) (selfId : Nat)
    (d0 : MMData) (h : (MergeMem_Ideal g cr selfId d0).2 = false) :
    ∀ i, mmIn g (MergeMem_Ideal g cr selfId d0).1 i = mmIn g d0 i := by
  intro i
  by_cases hob : base_memory g d0 = g.emptyId
  · have hMI : MergeMem_Ideal g cr selfId d0 = (d0, false) := by
      simp only [MergeMem_Ideal]
      rw [if_pos hob]
    rw [hMI]
  · obtain ⟨hres, _, _, _⟩ := ideal_no_progress_main g cr selfId d0 hob h
    rw [hres]
    exact mmIn_ideal_d1 g selfId d0 i

theorem ideal_progress_changed (g : BGraph) (cr : Bool) (selfId : Nat)
    (d0 : MMData) (h : (MergeMem_Ideal g cr selfId d0).2 = true) :
    ∃ i, mmIn g (MergeMem_Ideal g cr selfId d0).1 i ≠ mmIn g d0 i := by
  by_cases hob : base_memory g d0 = g.emptyId
  · have hMI : MergeMem_Ideal g cr selfId d0 = (d0, false) := by
      simp only [MergeMem_Ideal]
      rw [if_pos hob]
    rw [hMI] at h
    exact absurd h (by simp)
  · have hMI : MergeMem_Ideal g cr selfId d0 =
        (if base_memory g (ideal_d5 g selfId d0) = g.emptyId then
          (if cr then ideal_d5 g selfId d0 else clear_slices g (ideal_d5 g selfId d0),
            true)
        else (ideal_d5 g selfId d0, (ideal_d3p g selfId d0).2)) := by
      simp only [MergeMem_Ideal]
      rw [if_neg hob]
    by_cases hc : base_memory g (ideal_d5 g selfId d0) = g.emptyId
    · refine ⟨aliasIdxBot, ?_⟩
      rw [hMI, if_pos hc]
      simp only
      cases cr with
      | true =>
        simp only [if_pos rfl]
        show base_memory g (ideal_d5 g selfId d0) ≠ mmIn g d0 aliasIdxBot
        rw [hc]
        exact fun hx => hob hx.symm
      | false =>
        rw [if_neg (by simp : ¬(false = true))]
        show mmIn g (clear_slices g (ideal_d5 g selfId d0)) aliasIdxBot
            ≠ mmIn g d0 aliasIdxBot
        rw [mmIn_clear_slices_low g _ _ (by norm_num [aliasIdxBot, aliasIdxRaw])]
        show base_memory g (ideal_d5 g selfId d0) ≠ mmIn g d0 aliasIdxBot
        rw [hc]
        exact fun hx => hob hx.symm
    · rw [hMI, if_neg hc] at h ⊢
      simp only at h ⊢
      have hlen1 : 3 ≤ (ideal_d1 g selfId d0).ins.length :=
        le_trans (len3_of_base_ne_empty g d0 hob) (ideal_d1_len g selfId d0)
      have hlensl : 3 ≤ (ideal_sl g selfId d0).1.length := by
        rw [ideal_sl_len]; exact hlen1
      have hlen : 3 ≤ (ideal_d3p g selfId d0).1.ins.length := by
        rw [ideal_d3p_len]; exact hlensl
      obtain ⟨h5eq, hself⟩ := ideal_d5_collapse g selfId d0 hlen hc
      by_cases hnb : ideal_new_base g selfId d0 ≠ base_memory g d0
      · refine ⟨aliasIdxBot, ?_⟩
        rw [h5eq]
        have hd3p1 : (ideal_d3p g selfId d0).1 =
            mmSetIn ⟨(ideal_sl g selfId d0).1⟩ aliasIdxBot
              (ideal_new_base g selfId d0) := by
          unfold ideal_d3p
          rw [if_pos hnb]
        rw [hd3p1]
        show base_memory g (mmSetIn ⟨(ideal_sl g selfId d0).1⟩ aliasIdxBot
            (ideal_new_base g selfId d0)) ≠ mmIn g d0 aliasIdxBot
        rw [base_mmSetIn_bot g _ _ hlensl]
        exact hnb
      · have hd3p : ideal_d3p g selfId d0 =
            (⟨(ideal_sl g selfId d0).1⟩, (ideal_sl g selfId d0).2) := by
          unfold ideal_d3p
          rw [if_neg hnb]
        rw [hd3p] at h
        simp only at h
        have hsl2 : (ideal_slices g selfId (base_memory g d0)
            (ideal_new_base g selfId d0) 0 (ideal_d1 g selfId d0).ins).2 = true := by
          unfold ideal_sl at h
          exact h
        obtain ⟨j, hj, hne⟩ := ideal_slices_progress_ne g selfId (base_memory g d0)
          (ideal_new_base g selfId d0) (ideal_d1 g selfId d0).ins 0 hsl2
        refine ⟨j, ?_⟩
        rw [h5eq, hd3p]
        simp only
        show (ideal_sl g selfId d0).1.getD j g.emptyId ≠ mmIn g d0 j
        rw [← mmIn_ideal_d1 g selfId d0 j]
        exact hne

theorem set_memory_at_mmIn (g : BGraph) (d : MMData) (idx n i : Nat) :
    mmIn g (set_memory_at g d idx n) i =
      if i = idx then (if n = base_memory g d then g.emptyId else n)
      else mmIn g d i := by
  unfold set_memory_at
  by_cases hgrow : d.ins.length < idx + 1
  · rw [if_pos hgrow]
    by_cases hne : (if n = base_memory g d then g.emptyId else n) = g.emptyId
    · rw [if_pos hne]
      by_cases hii : i = idx
      · subst hii
        rw [if_pos rfl, hne]
        unfold mmIn
        exact List.getD_eq_default _ _ (by omega)
      · rw [if_neg hii]
    · rw [if_neg hne]
      by_cases hii : i = idx
      · subst hii
        rw [if_pos rfl]
        unfold mmSetIn mmIn
        simp only
        exact getD_set_self _ _ _ _ (by simp; omega)
      · rw [if_neg hii]
        unfold mmSetIn mmIn
        simp only
        rw [getD_set_ne _ _ _ _ _ (Ne.symm hii)]
        exact mmIn_pad g d.ins _ i
  · rw [if_neg hgrow]
    by_cases hii : i = idx
    · subst hii
      rw [if_pos rfl]
      unfold mmSetIn mmIn
      simp only
      exact getD_set_self _ _ _ _ (by omega)
    · rw [if_neg hii]
      unfold mmSetIn mmIn
      simp only
      exact getD_set_ne _ _ _ _ _ (Ne.symm hii)

theorem set_memory_at_len_default (g : BGraph) (d : MMData) (idx n : Nat)
    (h : n = base_memory g d) :
    (set_memory_at g d idx n).ins.length = d.ins.length := by
  unfold set_memory_at
  rw [if_pos h]
  by_cases hgrow : d.ins.length < idx + 1
  · rw [if_pos hgrow, if_pos rfl]
  · rw [if_neg hgrow]
    simp [mmSetIn]

theorem set_memory_at_base (g : BGraph) (d : MMData) (idx n : Nat)
    (hidx : aliasIdxRaw ≤ idx) :
    base_memory g (set_memory_at g d idx n) = base_memory g d := by
  show mmIn g (set_memory_at g d idx n) aliasIdxBot = mmIn g d aliasIdxBot
  rw [set_memory_at_mmIn]
  rw [if_neg (by unfold aliasIdxBot aliasIdxRaw at *; omega)]

theorem set_memory_at_sparse (g : BGraph) (d : MMData) (idx n : Nat)
    (hidx : aliasIdxRaw ≤ idx) (hs : verify_sparse g d = true) :
    verify_sparse g (set_memory_at g d idx n) = true := by
  unfold verify_sparse at hs ⊢
  rw [set_memory_at_base g d idx n hidx]
  by_cases hb : base_memory g d = g.emptyId
  · rw [if_pos hb]
  · rw [if_neg hb] at hs ⊢
    rw [List.all_eq_true] at hs ⊢
    intro i hi
    rw [List.mem_range] at hi
    by_cases hlow : i < aliasIdxRaw
    · simp [hlow]
    · simp only [Bool.or_eq_true, decide_eq_true_eq]
      right
      rw [set_memory_at_mmIn]
      by_cases hii : i = idx
      · rw [if_pos hii]
        by_cases hdef : n = base_memory g d
        · rw [if_pos hdef]
          exact fun hx => hb hx.symm
        · rw [if_neg hdef]
          exact hdef
      · rw [if_neg hii]
        by_cases hlt : i < d.ins.length
        · have := hs i (List.mem_range.mpr hlt)
          simp only [Bool.or_eq_true, decide_eq_true_eq] at this
          rcases this with hl | hr
          · omega
          · exact hr
        · have : mmIn g d i = g.emptyId := by
            unfold mmIn
            exact List.getD_eq_default _ _ (by omega)
          rw [this]
          exact fun hx => hb hx.symm

/-- C2: the sparse-merge invariant.  `set_memory_at(idx, n)` with `n` equal to
the base memory clears the slot to the empty sentinel instead of storing it
(growing the sparse input array only when storing a non-default value);
`set_memory_at` preserves `verify_sparse`; and whenever `MergeMemNode::Ideal`
reports no change (a fixed point of the simplify rewrite), no explicitly stored
slice input of the node equals its base memory (`verify_sparse` holds of the
result). -/
theorem c2_sparse_merge_invariant :
    (∀ (g : BGraph) (d : MMData) (idx n : Nat), aliasIdxRaw ≤ idx →
      n = base_memory g d →
      mmIn g (set_memory_at g d idx n) idx = g.emptyId ∧
      (set_memory_at g d idx n).ins.length = d.ins.length) ∧
    (∀ (g : BGraph) (d : MMData) (idx n : Nat), aliasIdxRaw ≤ idx →
      verify_sparse g d = true →
      verify_sparse g (set_memory_at g d idx n) = true) ∧
    (∀ (g : BGraph) (cr : Bool) (selfId : Nat) (d : MMData),
      (MergeMem_Ideal g cr selfId d).2 = false →
      verify_sparse g (MergeMem_Ideal g cr selfId d).1 = true) := by
  refine ⟨?_, ?_, ?_⟩
  · intro g d idx n _ hdef
    constructor
    · rw [set_memory_at_mmIn, if_pos rfl, if_pos hdef]
    · exact set_memory_at_len_default g d idx n hdef
  · intro g d idx n hidx hs
    exact set_memory_at_sparse g d idx n hidx hs
  · intro g cr selfId d h
    exact ideal_no_progress_sparse g cr selfId d h

/-- The ambient graph of the C2 witness (no other MergeMem nodes). -/
def c2w_g : BGraph := ⟨fun _ => none, 1, fun _ => false⟩

/-- The MergeMem node of the C2 witness: base memory node 5, one empty slice. -/
def c2w_d : MMData := ⟨[0, 1, 5, 1]⟩

/-- Witness for C2: storing the base memory at slice 3 of a concrete node
clears the slot without growing the array, preserves sparseness, and a
no-progress run of Ideal on the node leaves it sparse. -/
theorem c2_sparse_merge_invariant_witness :
    (mmIn c2w_g (set_memory_at c2w_g c2w_d 3 5) 3 = c2w_g.emptyId ∧
      (set_memory_at c2w_g c2w_d 3 5).ins.length = c2w_d.ins.length) ∧
    verify_sparse c2w_g (set_memory_at c2w_g c2w_d 3 5) = true ∧
    verify_sparse c2w_g (MergeMem_Ideal c2w_g true 10 c2w_d).1 = true :=
  ⟨c2_sparse_merge_invariant.1 c2w_g c2w_d 3 5 (by decide) (by decide),
   c2_sparse_merge_invariant.2.1 c2w_g c2w_d 3 5 (by decide) (by decide),
   c2_sparse_merge_invariant.2.2 c2w_g true 10 c2w_d (by decide)⟩

/-- C8 (amended): `MergeMemNode::Ideal` reports "no change" exactly when the
invocation leaves the node unchanged (every input, read sparsely, keeps its
value: the node is already at a fixed point with every slot minimal relative
to the base). -/
theorem c8_ideal_reports_fixed_point :
    ∀ (g : BGraph) (cr : Bool) (selfId : Nat) (d : MMData),
      (MergeMem_Ideal g cr selfId d).2 = false ↔
        ∀ i, mmIn g (MergeMem_Ideal g cr selfId d).1 i = mmIn g d i := by
  intro g cr selfId d
  constructor
  · exact ideal_no_progress_pointwise g cr selfId d
  · intro hall
    by_contra hne
    have ht : (MergeMem_Ideal g cr selfId d).2 = true := by
      cases hb : (MergeMem_Ideal g cr selfId d).2
      · exact absurd hb hne
      · rfl
    obtain ⟨i, hi⟩ := ideal_progress_changed g cr selfId d ht
    exact hi (hall i)

/-- The graph of the C8 counterexample: a stack of three MergeMems
(node 20 with base 30, node 30 with base 40). -/
def c8c_g : BGraph :=
  ⟨fun nid => if nid = 20 then some ⟨[0, 1, 30, 1]⟩
              else if nid = 30 then some ⟨[0, 1, 40, 1]⟩
              else none,
   1, fun _ => false⟩

/-- The node of the C8 counterexample: its base memory is the stacked
MergeMem 20. -/
def c8c_d : MMData := ⟨[0, 1, 20, 1]⟩

/-- Counterexample for C8: on a stack of three MergeMems, Ideal flattens only
one level per invocation, so the second application immediately after a change
reports a further change (and produces a different node). -/
theorem c8_idempotence_counterexample :
    (MergeMem_Ideal c8c_g true 10 c8c_d).2 = true ∧
    (MergeMem_Ideal c8c_g true 10 (MergeMem_Ideal c8c_g true 10 c8c_d).1).2 = true ∧
    (MergeMem_Ideal c8c_g true 10 (MergeMem_Ideal c8c_g true 10 c8c_d).1).1
      ≠ (MergeMem_Ideal c8c_g true 10 c8c_d).1 := by
  decide

/-! ## Section D: the object-initialization coalescer (`InitializeNode`)

Source: memnode.cpp lines 4639-4648 (`get_store_offset`), 4837-4905
(`captured_store_insertion_point`, `find_captured_store`), 4937-4985
(`capture_store`) and 5453-5471 (`stores_are_sane`).  The inputs of an
InitializeNode from `RawStores` (index 3) up are the captured raw stores; a
slot may also hold the allocation's raw memory projection (`zero_memory`) or
dead garbage.  `TrackedInitializationLimit * HeapWordSize` and
`MAX2(BytesPerLong, MaxVectorSize)` are runtime flags, passed here as the
parameters `ti_limit` and `max_store`. -/

/-- One raw-store input slot of an InitializeNode: a captured store with the
constant offset and size decoded by `get_store_offset` and `memory_size` (and
the id of the store node), the `zero_memory` projection, or dead garbage. -/
inductive ISlot where
  | st (off : Int) (size : Nat) (id : Nat)
  | zeroMem
  | dead
deriving DecidableEq, Repr

/-- `InitializeNode::RawStores`: the input index of the first captured store. -/
def RawStores : Nat := 3

/-- The capture-relevant state of one InitializeNode: the complete flag, the
allocation's `minimum_header_size()`, and the raw-store input slots (slot `j`
of this list is node input `RawStores + j`). -/
structure InitD where
  complete : Bool
  minHeader : Int
  slots : List ISlot
deriving DecidableEq, Repr

/-- `InitializeNode::get_store_offset`: the constant offset of a captured
store, or `-1` for dead code or an unresolvable or negative offset. -/
def get_store_offset (s : ISlot) : Int :=
  match s with
  | ISlot.st off _ _ => if off < 0 then -1 else off
  | _ => -1

/-- The `memory_size()` of a captured store slot (0 for non-stores; only read
on slots whose offset is non-negative, which are stores). -/
def islot_size (s : ISlot) : Nat :=
  match s with
  | ISlot.st _ size _ => size
  | _ => 0

/-- The scan loop of `captured_store_insertion_point` over the raw-store
slots; `i` is the node input index of the head slot.  Returns the positive
input index of an exact-offset match, the negative of the insertion index when
the range is not present, or `0` (FAIL) on overlap or dead garbage. -/
def csip_go (max_store : Nat) (start : Int) (size_in_bytes : Nat) :
    Nat → List ISlot → Int
  | i, [] => -(i : Int)
  | i, s :: rest =>
    let st_off := get_store_offset s
    if st_off < 0 then
      (if s ≠ ISlot.zeroMem then 0 else csip_go max_store start size_in_bytes (i + 1) rest)
    else if start < st_off then
      (if st_off < start + size_in_bytes then 0 else -(i : Int))
    else if st_off < start then
      (if size_in_bytes ≠ 0 ∧ start < st_off + max_store ∧
          start < st_off + islot_size s then 0
       else csip_go max_store start size_in_bytes (i + 1) rest)
    else
      (if size_in_bytes ≠ 0 ∧ islot_size s ≠ size_in_bytes then 0 else (i : Int))

/-- `InitializeNode::captured_store_insertion_point`: find the captured store
covering `[start, start+size)`, the insertion point for one, or fail (return
0) if the node is complete, the offset is below the header or beyond the
tracked-initialization limit, or the range overlaps a neighbouring store. -/
def captured_store_insertion_point (ti_limit : Int) (max_store : Nat)
    (init : InitD) (start : Int) (size_in_bytes : Nat) : Int :=
  if init.complete then 0
  else if start < init.minHeader then 0
  else if ti_limit ≤ start then 0
  else csip_go max_store start size_in_bytes RawStores init.slots

/-- `InitializeNode::find_captured_store`: the captured store initializing
exactly `[start, start+size)`, `zero_memory` (`zeroId`) when nothing
interferes, or nothing when the insertion point fails. -/
def find_captured_store (ti_limit : Int) (max_store : Nat) (init : InitD)
    (zeroId : Nat) (start : Int) (size_in_bytes : Nat) : Option Nat :=
  let i := captured_store_insertion_point ti_limit max_store init start size_in_bytes
  if i = 0 then none
  else if i < 0 then some zeroId
  else
    match init.slots.getD (i.toNat - RawStores) ISlot.dead with
    | ISlot.st _ _ id => some id
    | _ => none

/-- The scan of `InitializeNode::stores_are_sane`: offsets of captured stores
are non-decreasing, each beginning at or after the end of the previous one
(`last_off` starts at the allocation's minimum header size). -/
def sane_go : Int → List ISlot → Bool
  | _, [] => true
  | last_off, s :: rest =>
    let st_off := get_store_offset s
    if st_off < 0 then sane_go last_off rest
    else if st_off < last_off then false
    else sane_go (st_off + (islot_size s : Int)) rest

/-- `InitializeNode::stores_are_sane` (a complete node's stores may be
anything). -/
def stores_are_sane (init : InitD) : Bool :=
  if init.complete then true
  else sane_go init.minHeader init.slots

/-- `InitializeNode::capture_store`: insert the captured store (already cloned
to a raw store by the caller; `new_slot` is its slot, the transformed clone) at
the insertion point: overwrite an exact match, reuse an adjacent folded-away
`zero_memory` edge, or insert a new edge.  Fails (`none`) for a negative start
or a failed insertion point. -/
def capture_store (ti_limit : Int) (max_store : Nat) (init : InitD)
    (start : Int) (size_in_bytes : Nat) (new_slot : ISlot) : Option InitD :=
  if start < 0 then none
  else
    let i := captured_store_insertion_point ti_limit max_store init start size_in_bytes
    if i = 0 then none
    else if 0 < i then
      some { init with slots := init.slots.set (i.toNat - RawStores) new_slot }
    else
      let j := (-i).toNat - RawStores
      if RawStores < (-i).toNat ∧
          init.slots.getD (j - 1) ISlot.dead = ISlot.zeroMem then
        some { init with slots := init.slots.set (j - 1) new_slot }
      else
        some { init with slots := init.slots.insertIdx j new_slot }

theorem sane_go_mono : ∀ (l : List ISlot) (a b : Int), b ≤ a →
    sane_go a l = true → sane_go b l = true := by
  intro l
  induction l with
  | nil => intro a b _ _; rfl
  | cons s rest ih =>
    intro a b hba h
    unfold sane_go at h ⊢
    by_cases h0 : get_store_offset s < 0
    · rw [if_pos h0] at h ⊢
      exact ih a b hba h
    · rw [if_neg h0] at h ⊢
      by_cases hlt : get_store_offset s < a
      · rw [if_pos hlt] at h
        exact absurd h (by simp)
      · rw [if_neg hlt] at h
        rw [if_neg (by omega)]
        exact h

theorem csip_go_neg_ge (ms : Nat) (start : Int) (size : Nat) :
    ∀ (slots : List ISlot) (i m : Nat), 0 < i →
      csip_go ms start size i slots = -(m : Int) → 0 < m → i ≤ m := by
  intro slots
  induction slots with
  | nil =>
    intro i m _ hr _
    unfold csip_go at hr
    omega
  | cons s rest ih =>
    intro i m hi hr hm
    unfold csip_go at hr
    by_cases h0 : get_store_offset s < 0
    · rw [if_pos h0] at hr
      by_cases hz : s ≠ ISlot.zeroMem
      · rw [if_pos hz] at hr; omega
      · rw [if_neg hz] at hr
        have := ih (i + 1) m (by omega) hr hm
        omega
    · rw [if_neg h0] at hr
      by_cases hgt : start < get_store_offset s
      · rw [if_pos hgt] at hr
        split at hr <;> omega
      · rw [if_neg hgt] at hr
        by_cases hlt : get_store_offset s < start
        · rw [if_pos hlt] at hr
          split at hr
          · omega
          · have := ih (i + 1) m (by omega) hr hm
            omega
        · rw [if_neg hlt] at hr
          split at hr <;> omega

theorem sane_go_cons (last : Int) (s : ISlot) (rest : List ISlot) :
    sane_go last (s :: rest) =
      if get_store_offset s < 0 then sane_go last rest
      else if get_store_offset s < last then false
      else sane_go (get_store_offset s + (islot_size s : Int)) rest := rfl

theorem csip_insert_sane (ms : Nat) (start : Int) (size : Nat) (nid : Nat)
    (new_slot : ISlot)
    (hns : new_slot = ISlot.st start size nid ∨ new_slot = ISlot.zeroMem)
    (hsize0 : size ≠ 0) (hstart0 : 0 ≤ start) :
    ∀ (slots : List ISlot) (i : Nat) (last : Int) (m : Nat),
      0 < i → 0 < m →
      sane_go last slots = true →
      (∀ s ∈ slots, islot_size s ≤ ms) →
      last ≤ start →
      csip_go ms start size i slots = -(m : Int) →
      sane_go last (slots.insertIdx (m - i) new_slot) = true := by
  have hoffst : get_store_offset (ISlot.st start size nid) = start := by
    show (if start < 0 then (-1 : Int) else start) = start
    rw [if_neg (by omega)]
  have hoffz : get_store_offset ISlot.zeroMem = (-1 : Int) := rfl
  have hsizest : ((islot_size (ISlot.st start size nid) : Nat) : Int) = (size : Int) := rfl
  intro slots
  induction slots with
  | nil =>
    intro i last m hi hm hsane hsz hle hr
    unfold csip_go at hr
    have hmi : m = i := by omega
    subst hmi
    rw [Nat.sub_self, List.insertIdx_zero]
    rcases hns with hns | hns <;> subst hns
    · rw [sane_go_cons, hoffst]
      rw [if_neg (by omega), if_neg (by omega)]
      rfl
    · rw [sane_go_cons, hoffz]
      rw [if_pos (by omega)]
      rfl
  | cons s rest ih =>
    intro i last m hi hm hsane hsz hle hr
    unfold csip_go at hr
    by_cases h0 : get_store_offset s < 0
    · rw [if_pos h0] at hr
      by_cases hz : s ≠ ISlot.zeroMem
      · rw [if_pos hz] at hr; omega
      · rw [if_neg hz] at hr
        have hge : i + 1 ≤ m := csip_go_neg_ge ms start size rest (i + 1) m (by omega) hr hm
        have hmi : m - i = (m - (i + 1)) + 1 := by omega
        rw [hmi, List.insertIdx_succ_cons]
        have hsane' : sane_go last rest = true := by
          rw [sane_go_cons, if_pos h0] at hsane
          exact hsane
        have hres := ih (i + 1) last m (by omega) hm hsane'
          (fun x hx => hsz x (List.mem_cons_of_mem s hx)) hle hr
        rw [sane_go_cons, if_pos h0]
        exact hres
    · rw [if_neg h0] at hr
      have hsane2 : ¬ get_store_offset s < last ∧
          sane_go (get_store_offset s + (islot_size s : Int)) rest = true := by
        rw [sane_go_cons, if_neg h0] at hsane
        by_cases hlt : get_store_offset s < last
        · rw [if_pos hlt] at hsane
          exact absurd hsane (by simp)
        · rw [if_neg hlt] at hsane
          exact ⟨hlt, hsane⟩
      by_cases hgt : start < get_store_offset s
      · rw [if_pos hgt] at hr
        by_cases hov : get_store_offset s < start + (size : Int)
        · rw [if_pos hov] at hr; omega
        · rw [if_neg hov] at hr
          have hmi : m = i := by omega
          subst hmi
          rw [Nat.sub_self, List.insertIdx_zero]
          rcases hns with hns | hns <;> subst hns
          · rw [sane_go_cons, hoffst, hsizest]
            rw [if_neg (by omega), if_neg (by omega)]
            rw [sane_go_cons, if_neg h0, if_neg (by omega)]
            exact hsane2.2
          · rw [sane_go_cons, hoffz, if_pos (by omega)]
            rw [sane_go_cons, if_neg h0, if_neg hsane2.1]
            exact hsane2.2
      · rw [if_neg hgt] at hr
        by_cases hlt : get_store_offset s < start
        · rw [if_pos hlt] at hr
          by_cases hfail : size ≠ 0 ∧ start < get_store_offset s + (ms : Int) ∧
              start < get_store_offset s + (islot_size s : Int)
          · rw [if_pos hfail] at hr; omega
          · rw [if_neg hfail] at hr
            have hge : i + 1 ≤ m :=
              csip_go_neg_ge ms start size rest (i + 1) m (by omega) hr hm
            have hmi : m - i = (m - (i + 1)) + 1 := by omega
            rw [hmi, List.insertIdx_succ_cons]
            have hszs : islot_size s ≤ ms := hsz s (List.mem_cons_self s rest)
            have hacc : get_store_offset s + (islot_size s : Int) ≤ start := by
              rcases not_and_or.mp hfail with h1 | h1
              · omega
              rcases not_and_or.mp h1 with h2 | h2 <;> omega
            have hres := ih (i + 1) (get_store_offset s + (islot_size s : Int)) m
              (by omega) hm hsane2.2
              (fun x hx => hsz x (List.mem_cons_of_mem s hx)) hacc hr
            rw [sane_go_cons, if_neg h0, if_neg hsane2.1]
            exact hres
        · rw [if_neg hlt] at hr
          split at hr <;> omega

theorem csip_go_pos_ge (ms : Nat) (start : Int) (size : Nat) :
    ∀ (slots : List ISlot) (i m : Nat), 0 < i →
      csip_go ms start size i slots = (m : Int) → 0 < m → i ≤ m := by
  intro slots
  induction slots with
  | nil =>
    intro i m hi hr _
    unfold csip_go at hr
    omega
  | cons s rest ih =>
    intro i m hi hr hm
    unfold csip_go at hr
    by_cases h0 : get_store_offset s < 0
    · rw [if_pos h0] at hr
      by_cases hz : s ≠ ISlot.zeroMem
      · rw [if_pos hz] at hr; omega
      · rw [if_neg hz] at hr
        have := ih (i + 1) m (by omega) hr hm
        omega
    · rw [if_neg h0] at hr
      by_cases hgt : start < get_store_offset s
      · rw [if_pos hgt] at hr
        split at hr <;> omega
      · rw [if_neg hgt] at hr
        by_cases hlt : get_store_offset s < start
        · rw [if_pos hlt] at hr
          split at hr
          · omega
          · have := ih (i + 1) m (by omega) hr hm
            omega
        · rw [if_neg hlt] at hr
          split at hr <;> omega

theorem csip_set_sane (ms : Nat) (start : Int) (size : Nat) (nid : Nat)
    (new_slot : ISlot)
    (hns : new_slot = ISlot.st start size nid ∨ new_slot = ISlot.zeroMem)
    (hsize0 : size ≠ 0) (hstart0 : 0 ≤ start) :
    ∀ (slots : List ISlot) (i : Nat) (last : Int) (m : Nat),
      0 < i → 0 < m →
      sane_go last slots = true →
      (∀ s ∈ slots, islot_size s ≤ ms) →
      last ≤ start →
      csip_go ms start size i slots = (m : Int) →
      sane_go last (slots.set (m - i) new_slot) = true := by
  have hoffst : get_store_offset (ISlot.st start size nid) = start := by
    show (if start < 0 then (-1 : Int) else start) = start
    rw [if_neg (by omega)]
  have hoffz : get_store_offset ISlot.zeroMem = (-1 : Int) := rfl
  have hsizest : ((islot_size (ISlot.st start size nid) : Nat) : Int) = (size : Int) := rfl
  intro slots
  induction slots with
  | nil =>
    intro i last m hi hm hsane hsz hle hr
    unfold csip_go at hr
    exact absurd hr (by omega)
  | cons s rest ih =>
    intro i last m hi hm hsane hsz hle hr
    unfold csip_go at hr
    by_cases h0 : get_store_offset s < 0
    · rw [if_pos h0] at hr
      by_cases hz : s ≠ ISlot.zeroMem
      · rw [if_pos hz] at hr
        exact absurd hr (by omega)
      · rw [if_neg hz] at hr
        have hge : i + 1 ≤ m := csip_go_pos_ge ms start size rest (i + 1) m (by omega) hr hm
        have hmi : m - i = (m - (i + 1)) + 1 := by omega
        rw [hmi, List.set_cons_succ]
        have hsane' : sane_go last rest = true := by
          rw [sane_go_cons, if_pos h0] at hsane
          exact hsane
        have hres := ih (i + 1) last m (by omega) hm hsane'
          (fun x hx => hsz x (List.mem_cons_of_mem s hx)) hle hr
        rw [sane_go_cons, if_pos h0]
        exact hres
    · rw [if_neg h0] at hr
      have hsane2 : ¬ get_store_offset s < last ∧
          sane_go (get_store_offset s + (islot_size s : Int)) rest = true := by
        rw [sane_go_cons, if_neg h0] at hsane
        by_cases hlt : get_store_offset s < last
        · rw [if_pos hlt] at hsane
          exact absurd hsane (by simp)
        · rw [if_neg hlt] at hsane
          exact ⟨hlt, hsane⟩
      by_cases hgt : start < get_store_offset s
      · rw [if_pos hgt] at hr
        split at hr <;> exact absurd hr (by omega)
      · rw [if_neg hgt] at hr
        by_cases hlt : get_store_offset s < start
        · rw [if_pos hlt] at hr
          by_cases hfail : size ≠ 0 ∧ start < get_store_offset s + (ms : Int) ∧
              start < get_store_offset s + (islot_size s : Int)
          · rw [if_pos hfail] at hr
            exact absurd hr (by omega)
          · rw [if_neg hfail] at hr
            have hge : i + 1 ≤ m :=
              csip_go_pos_ge ms start size rest (i + 1) m (by omega) hr hm
            have hmi : m - i = (m - (i + 1)) + 1 := by omega
            rw [hmi, List.set_cons_succ]
            have hszs : islot_size s ≤ ms := hsz s (List.mem_cons_self s rest)
            have hacc : get_store_offset s + (islot_size s : Int) ≤ start := by
              rcases not_and_or.mp hfail with h1 | h1
              · omega
              rcases not_and_or.mp h1 with h2 | h2 <;> omega
            have hres := ih (i + 1) (get_store_offset s + (islot_size s : Int)) m
              (by omega) hm hsane2.2
              (fun x hx => hsz x (List.mem_cons_of_mem s hx)) hacc hr
            rw [sane_go_cons, if_neg h0, if_neg hsane2.1]
            exact hres
        · rw [if_neg hlt] at hr
          have heq : get_store_offset s = start := by omega
          by_cases hsz2 : size ≠ 0 ∧ islot_size s ≠ size
          · rw [if_pos hsz2] at hr
            exact absurd hr (by omega)
          · rw [if_neg hsz2] at hr
            have hmi : m = i := by omega
            subst hmi
            have hszeq : islot_size s = size := by
              rcases not_and_or.mp hsz2 with h1 | h1
              · exact absurd hsize0 h1
              · exact not_ne_iff.mp h1
            rw [Nat.sub_self, List.set_cons_zero]
            rcases hns with hns | hns <;> subst hns
            · rw [sane_go_cons, hoffst, hsizest]
              rw [if_neg (by omega), if_neg (by omega)]
              rw [← heq]
              have : ((islot_size s : Nat) : Int) = (size : Int) := by
                rw [hszeq]
              rw [← this]
              exact hsane2.2
            · rw [sane_go_cons, hoffz, if_pos (by omega)]
              refine sane_go_mono rest (get_store_offset s + (islot_size s : Int)) last
                (by rw [heq, hszeq]; omega) hsane2.2

theorem sane_set_zero_insert (new_slot : ISlot) :
    ∀ (l : List ISlot) (j : Nat) (last : Int), j < l.length →
      l.getD j ISlot.dead = ISlot.zeroMem →
      sane_go last (l.set j new_slot) = sane_go last (l.insertIdx (j + 1) new_slot) := by
  intro l
  induction l with
  | nil => intro j last h _; simp at h
  | cons s rest ih =>
    intro j last hlen hz
    cases j with
    | zero =>
      have hs : s = ISlot.zeroMem := by simpa using hz
      subst hs
      rw [List.set_cons_zero, List.insertIdx_succ_cons, List.insertIdx_zero]
      symm
      rw [sane_go_cons, if_pos (by decide)]
    | succ j' =>
      have hlen' : j' < rest.length := by simpa using hlen
      have hz' : rest.getD j' ISlot.dead = ISlot.zeroMem := by simpa using hz
      rw [List.set_cons_succ, List.insertIdx_succ_cons]
      rw [sane_go_cons]
      conv_rhs => rw [sane_go_cons]
      by_cases h0 : get_store_offset s < 0
      · rw [if_pos h0, if_pos h0]
        exact ih j' last hlen' hz'
      · rw [if_neg h0, if_neg h0]
        by_cases hlt : get_store_offset s < last
        · rw [if_pos hlt, if_pos hlt]
        · rw [if_neg hlt, if_neg hlt]
          exact ih j' _ hlen' hz'

theorem mem_insertIdx_any :
    ∀ (l : List ISlot) (n : Nat) (b a : ISlot), a ∈ l.insertIdx n b →
      a = b ∨ a ∈ l := by
  intro l
  induction l with
  | nil =>
    intro n b a h
    cases n with
    | zero =>
      rw [List.insertIdx_zero] at h
      exact Or.inl (by simpa using h)
    | succ n =>
      rw [List.insertIdx_succ_nil] at h
      exact absurd h (by simp)
  | cons s rest ih =>
    intro n b a h
    cases n with
    | zero =>
      rw [List.insertIdx_zero] at h
      rcases List.mem_cons.mp h with h | h
      · exact Or.inl h
      · exact Or.inr h
    | succ n =>
      rw [List.insertIdx_succ_cons] at h
      rcases List.mem_cons.mp h with h | h
      · exact Or.inr (h ▸ List.mem_cons_self s rest)
      · rcases ih n b a h with h | h
        · exact Or.inl h
        · exact Or.inr (List.mem_cons_of_mem s h)

/-- The guard facts established by a non-failing
`captured_store_insertion_point`: the node is not complete, the offset is at
or above the header and strictly below the tracked limit, and the result is
that of the slot scan. -/
theorem csip_nonzero_guards (ti : Int) (ms : Nat) (init : InitD) (start : Int)
    (size : Nat)
    (hI : captured_store_insertion_point ti ms init start size ≠ 0) :
    init.complete = false ∧ init.minHeader ≤ start ∧ start < ti ∧
    captured_store_insertion_point ti ms init start size =
      csip_go ms start size RawStores init.slots := by
  unfold captured_store_insertion_point at hI ⊢
  by_cases hcomp : init.complete
  · rw [if_pos hcomp] at hI
    exact absurd rfl hI
  · rw [if_neg hcomp] at hI ⊢
    by_cases hh : start < init.minHeader
    · rw [if_pos hh] at hI
      exact absurd rfl hI
    · rw [if_neg hh] at hI ⊢
      by_cases ht : ti ≤ start
      · rw [if_pos ht] at hI
        exact absurd rfl hI
      · rw [if_neg ht] at hI ⊢
        exact ⟨by simpa using hcomp, by omega, by omega, rfl⟩

theorem capture_store_preserves_sane (ti : Int) (ms : Nat) (init : InitD)
    (start : Int) (size : Nat) (nid : Nat) (new_slot : ISlot) (init' : InitD)
    (hns : new_slot = ISlot.st start size nid ∨ new_slot = ISlot.zeroMem)
    (hsize0 : size ≠ 0)
    (hsz : ∀ s ∈ init.slots, islot_size s ≤ ms)
    (hsane : stores_are_sane init = true)
    (hcap : capture_store ti ms init start size new_slot = some init') :
    stores_are_sane init' = true := by
  unfold capture_store at hcap
  by_cases hstart : start < 0
  · rw [if_pos hstart] at hcap
    exact absurd hcap (by simp)
  · rw [if_neg hstart] at hcap
    by_cases hI : captured_store_insertion_point ti ms init start size = 0
    · rw [hI] at hcap
      rw [if_pos rfl] at hcap
      exact absurd hcap (by simp)
    · obtain ⟨hcomp, hhdr, hti, hEq⟩ := csip_nonzero_guards ti ms init start size hI
      rw [if_neg hI] at hcap
      have hsane' : sane_go init.minHeader init.slots = true := by
        unfold stores_are_sane at hsane
        rw [if_neg (by simp [hcomp])] at hsane
        exact hsane
      have hsane_out : ∀ sl : List ISlot,
          init' = { init with slots := sl } →
          sane_go init.minHeader sl = true → stores_are_sane init' = true := by
        intro sl hinit hsl
        subst hinit
        unfold stores_are_sane
        rw [if_neg (by simp [hcomp])]
        exact hsl
      by_cases hpos : 0 < captured_store_insertion_point ti ms init start size
      · rw [if_pos hpos] at hcap
        have hm : captured_store_insertion_point ti ms init start size =
            (((captured_store_insertion_point ti ms init start size).toNat : Nat) : Int) := by
          omega
        have hr : csip_go ms start size RawStores init.slots =
            (((captured_store_insertion_point ti ms init start size).toNat : Nat) : Int) := by
          rw [← hEq]
          exact hm
        refine hsane_out _ (by simpa using hcap.symm) ?_
        refine csip_set_sane ms start size nid new_slot hns hsize0 (by omega)
          init.slots RawStores init.minHeader _ (by decide) (by omega) hsane' hsz hhdr hr
      · rw [if_neg hpos] at hcap
        have hneg : captured_store_insertion_point ti ms init start size < 0 := by
          omega
        have hm0 : 0 < (-(captured_store_insertion_point ti ms init start size)).toNat := by
          omega
        have hr : csip_go ms start size RawStores init.slots =
            -((((-(captured_store_insertion_point ti ms init start size)).toNat : Nat) : Int)) := by
          rw [← hEq]
          omega
        have hins : sane_go init.minHeader
            (init.slots.insertIdx
              ((-(captured_store_insertion_point ti ms init start size)).toNat - RawStores)
              new_slot) = true :=
          csip_insert_sane ms start size nid new_slot hns hsize0 (by omega)
            init.slots RawStores init.minHeader _ (by decide) hm0 hsane' hsz hhdr hr
        by_cases hreuse : RawStores < (-(captured_store_insertion_point ti ms init start size)).toNat ∧
            init.slots.getD
              ((-(captured_store_insertion_point ti ms init start size)).toNat - RawStores - 1)
              ISlot.dead = ISlot.zeroMem
        · rw [if_pos hreuse] at hcap
          refine hsane_out _ (by simpa using hcap.symm) ?_
          have hjlen : (-(captured_store_insertion_point ti ms init start size)).toNat -
              RawStores - 1 < init.slots.length := by
            by_contra hoob
            have : init.slots.getD
                ((-(captured_store_insertion_point ti ms init start size)).toNat - RawStores - 1)
                ISlot.dead = ISlot.dead :=
              List.getD_eq_default _ _ (by omega)
            rw [hreuse.2] at this
            exact absurd this (by simp)
          rw [sane_set_zero_insert new_slot init.slots _ init.minHeader hjlen hreuse.2]
          have hj1 : (-(captured_store_insertion_point ti ms init start size)).toNat -
              RawStores - 1 + 1 =
              (-(captured_store_insertion_point ti ms init start size)).toNat - RawStores := by
            have := hreuse.1
            unfold RawStores at *
            omega
          rw [hj1]
          exact hins
        · rw [if_neg hreuse] at hcap
          exact hsane_out _ (by simpa using hcap.symm) hins

/-- Every captured store (a slot with a resolvable, non-negative offset) lies
at or above the allocation's minimum header size and strictly below the
tracked-initialization limit. -/
def slots_in_range (ti : Int) (init : InitD) : Prop :=
  ∀ s ∈ init.slots, 0 ≤ get_store_offset s →
    init.minHeader ≤ get_store_offset s ∧ get_store_offset s < ti

theorem capture_store_preserves_range (ti : Int) (ms : Nat) (init : InitD)
    (start : Int) (size : Nat) (nid : Nat) (new_slot : ISlot) (init' : InitD)
    (hns : new_slot = ISlot.st start size nid ∨ new_slot = ISlot.zeroMem)
    (hrange : slots_in_range ti init)
    (hcap : capture_store ti ms init start size new_slot = some init') :
    slots_in_range ti init' := by
  unfold capture_store at hcap
  by_cases hstart : start < 0
  · rw [if_pos hstart] at hcap
    exact absurd hcap (by simp)
  · rw [if_neg hstart] at hcap
    by_cases hI : captured_store_insertion_point ti ms init start size = 0
    · rw [hI, if_pos rfl] at hcap
      exact absurd hcap (by simp)
    · obtain ⟨hcomp, hhdr, hti, hEq⟩ := csip_nonzero_guards ti ms init start size hI
      have hnew : ∀ s : ISlot, s = new_slot → 0 ≤ get_store_offset s →
          init.minHeader ≤ get_store_offset s ∧ get_store_offset s < ti := by
        intro s hs h0
        subst hs
        rcases hns with hns | hns <;> subst hns
        · have : get_store_offset (ISlot.st start size nid) = start := by
            show (if start < 0 then (-1 : Int) else start) = start
            rw [if_neg (by omega)]
          rw [this]
          exact ⟨hhdr, hti⟩
        · exact absurd h0 (by decide)
      have hout : ∀ sl : List ISlot, init' = { init with slots := sl } →
          (∀ s ∈ sl, s ∈ init.slots ∨ s = new_slot) → slots_in_range ti init' := by
        intro sl hinit hsub
        subst hinit
        intro s hs h0
        rcases hsub s hs with hmem | hnew'
        · exact hrange s hmem h0
        · exact hnew s hnew' h0
      rw [if_neg hI] at hcap
      by_cases hpos : 0 < captured_store_insertion_point ti ms init start size
      · rw [if_pos hpos] at hcap
        refine hout _ (by simpa using hcap.symm) ?_
        intro s hs
        rcases List.mem_or_eq_of_mem_set hs with h | h
        · exact Or.inl h
        · exact Or.inr h
      · rw [if_neg hpos] at hcap
        by_cases hreuse : RawStores < (-(captured_store_insertion_point ti ms init start size)).toNat ∧
            init.slots.getD
              ((-(captured_store_insertion_point ti ms init start size)).toNat - RawStores - 1)
              ISlot.dead = ISlot.zeroMem
        · rw [if_pos hreuse] at hcap
          refine hout _ (by simpa using hcap.symm) ?_
          intro s hs
          rcases List.mem_or_eq_of_mem_set hs with h | h
          · exact Or.inl h
          · exact Or.inr h
        · rw [if_neg hreuse] at hcap
          refine hout _ (by simpa using hcap.symm) ?_
          intro s hs
          rcases mem_insertIdx_any init.slots _ new_slot s hs with h | h
          · exact Or.inr h
          · exact Or.inl h

/-- C4: the captured-store list of an incomplete InitializeNode is kept
ordered and bounded.  Once the node is complete, `captured_store_insertion_point`
fails (and `capture_store` refuses) for every request; a successful insertion
point implies the offset lies in `[minimum_header_size, ti_limit)`; and
`capture_store` preserves both the non-decreasing, non-overlapping order of
captured stores (`stores_are_sane`) and the offset bounds of every captured
slot. -/
theorem c4_captured_stores_ordered_bounded :
    (∀ (ti : Int) (ms : Nat) (init : InitD) (start : Int) (size : Nat),
      init.complete = true →
      captured_store_insertion_point ti ms init start size = 0) ∧
    (∀ (ti : Int) (ms : Nat) (init : InitD) (start : Int) (size : Nat)
        (new_slot : ISlot), init.complete = true →
      capture_store ti ms init start size new_slot = none) ∧
    (∀ (ti : Int) (ms : Nat) (init : InitD) (start : Int) (size : Nat),
      captured_store_insertion_point ti ms init start size ≠ 0 →
      init.minHeader ≤ start ∧ start < ti) ∧
    (∀ (ti : Int) (ms : Nat) (init : InitD) (start : Int) (size nid : Nat)
        (new_slot : ISlot) (init' : InitD),
      new_slot = ISlot.st start size nid ∨ new_slot = ISlot.zeroMem →
      size ≠ 0 →
      (∀ s ∈ init.slots, islot_size s ≤ ms) →
      stores_are_sane init = true →
      slots_in_range ti init →
      capture_store ti ms init start size new_slot = some init' →
      stores_are_sane init' = true ∧ slots_in_range ti init') := by
  refine ⟨?_, ?_, ?_, ?_⟩
  · intro ti ms init start size hc
    unfold captured_store_insertion_point
    rw [if_pos (by simp [hc])]
  · intro ti ms init start size new_slot hc
    unfold capture_store
    by_cases hstart : start < 0
    · rw [if_pos hstart]
    · rw [if_neg hstart]
      have h0 : captured_store_insertion_point ti ms init start size = 0 := by
        unfold captured_store_insertion_point
        rw [if_pos (by simp [hc])]
      rw [h0, if_pos rfl]
  · intro ti ms init start size hI
    obtain ⟨_, h1, h2, _⟩ := csip_nonzero_guards ti ms init start size hI
    exact ⟨h1, h2⟩
  · intro ti ms init start size nid new_slot init' hns hsize0 hsz hsane hrange hcap
    exact ⟨capture_store_preserves_sane ti ms init start size nid new_slot init'
        hns hsize0 hsz hsane hcap,
      capture_store_preserves_range ti ms init start size nid new_slot init'
        hns hrange hcap⟩

/-- The InitializeNode of the C4 witness: incomplete, header 12, one captured
store at offset 12 of size 4 followed by a folded-away zero-memory edge. -/
def c4w_init : InitD := ⟨false, 12, [ISlot.st 12 4 7, ISlot.zeroMem]⟩

/-- The state of the C4 witness after capturing a store at offset 16. -/
def c4w_init2 : InitD := ⟨false, 12, [ISlot.st 12 4 7, ISlot.st 16 4 9]⟩

/-- The complete InitializeNode of the C4 witness. -/
def c4w_done : InitD := ⟨true, 12, []⟩

/-- Witness for C4: a complete node refuses every request; a successful
insertion point bounds the offset; and a concrete capture preserves order and
bounds. -/
theorem c4_captured_stores_ordered_bounded_witness :
    captured_store_insertion_point 128 8 c4w_done 16 4 = 0 ∧
    capture_store 128 8 c4w_done 16 4 (ISlot.st 16 4 9) = none ∧
    (c4w_init.minHeader ≤ 16 ∧ (16 : Int) < 128) ∧
    (stores_are_sane c4w_init2 = true ∧ slots_in_range 128 c4w_init2) :=
  ⟨c4_captured_stores_ordered_bounded.1 128 8 c4w_done 16 4 rfl,
   c4_captured_stores_ordered_bounded.2.1 128 8 c4w_done 16 4 (ISlot.st 16 4 9) rfl,
   c4_captured_stores_ordered_bounded.2.2.1 128 8 c4w_init 16 4 (by decide),
   by
    have := c4_captured_stores_ordered_bounded.2.2.2 128 8 c4w_init 16 4 9
      (ISlot.st 16 4 9) c4w_init2 (Or.inl rfl) (by decide) (by decide) (by decide)
      (by
        intro s hs h0
        fin_cases hs <;> simp_all [get_store_offset, c4w_init])
      (by decide)
    exact this⟩

/-! ## Section C: value forwarding (`MemNode::can_see_stored_value`),
`LoadNode::Identity` and the narrow-load `Value` functions

Source: memnode.cpp lines 1104-1261 (`can_see_stored_value`), 1282-1339
(`LoadNode::Identity`), 2279-2291 (`LoadBNode::Value`) and 2313-2325
(`LoadUBNode::Value`).

Model restrictions, each matching a guard in the source: loads whose address
type is not an instance pointer have `tp == nullptr`, hence
`skip_through_membars` returns false (line 1015) and the membar-skipping
prologue and the boxed-value branch (guarded by `tp->is_ptr_to_boxed_value()`)
are dead; the graphs modelled here contain no Phi nodes, so
`is_instance_field_load_with_local_phi` is false and the phi-search tail of
`Identity` returns the load itself; vector stores are not modelled, so the
`StoreVector` type check is dead.  Types are modelled for integer values only:
the type of a `ConI` node is its singleton range, any other value has the full
32-bit range, and `higher_equal` on such ranges is range inclusion. -/

/-- Modelled from the spec: the `Type::OffsetBot` sentinel (type.hpp, not
under `src/`) marking an address with no usable constant offset. -/
def OffsetBot : Int := -1073741824

/-- A store or load address as decomposed by
`AddPNode::Ideal_base_and_offset`: the address node id, the (uncast) base
pointer if the decomposition succeeds, and the constant offset. -/
structure CAddr where
  adrId : Nat
  base : Option Nat
  off : Int
deriving DecidableEq, Repr

/-- Basic value types, as used by `value_basic_type` and `zerocon`. -/
inductive BT where
  | byte | boolean | char | short | int | long | float | double | obj | void
deriving DecidableEq, Repr

/-- An integer value type (a `TypeInt` range `[lo, hi]`). -/
structure TypeInt where
  lo : Int
  hi : Int
deriving DecidableEq, Repr

/-- `Type::higher_equal` restricted to integer ranges: range inclusion. -/
def higher_equal (a b : TypeInt) : Bool := b.lo ≤ a.lo && a.hi ≤ b.hi

/-- The node kinds inspected by `can_see_stored_value` and the load rewrites:
a Store (opcode, decomposed address, stored-value edge), an integer constant,
the raw memory projection of an Allocate, a memory projection of an
InitializeNode (with its allocation, captured-store state from Section D, and
the id of its `zero_memory` projection), or anything else. -/
inductive CNode where
  | store (opc : Nat) (adr : CAddr) (valueIn : Nat)
  | conI (c : Int)
  | allocProj (alloc : Nat)
  | initProj (alloc : Option Nat) (init : InitD) (zeroId : Nat)
  | other
deriving DecidableEq, Repr

/-- The value graph together with the collaborator queries used by the
rewrites: `zerocon` (the compilation's shared zero constant per basic type),
`minHeader` (`AllocateNode::minimum_header_size` per allocation), the
`ReduceBulkZeroing` flag, and the Section D flag parameters. -/
structure CGraph where
  node : Nat → CNode
  zerocon : BT → Nat
  minHeader : Nat → Int
  ReduceBulkZeroing : Bool
  ti_limit : Int
  max_store : Nat

/-- The load performing the query: its address (id, decomposed base and
offset), its allocation (`AllocateNode::Ideal_allocation` of the base), its
width, its `store_Opcode()`, its declared type `_type`, whether it has a
pinned control dependency, its `value_basic_type()`, whether
`find_array_copy_clone` finds an arraycopy clone for it (an external
`ArrayCopyNode` query, hence an oracle flag), and its memory input. -/
structure CLoad where
  ldAdrId : Nat
  ldBase : Option Nat
  ldOff : Int
  ldAlloc : Option Nat
  memory_size : Nat
  store_Opcode : Nat
  loadType : TypeInt
  pinned : Bool
  bt : BT
  acClone : Bool
  memIn : Nat

/-- The Store branch of `can_see_stored_value` (lines 1167-1203): accept the
candidate if its address is literally the load's address or unifies with it
(same uncast base, same constant offset, offset known), then require the exact
store opcode for the load's width, and answer the stored value edge. -/
def cssv_store_case (q : CLoad) (opc : Nat) (adr : CAddr)
    (valueIn : Nat) : Option Nat :=
  if adr.adrId = q.ldAdrId then
    (if q.store_Opcode = opc then some valueIn else none)
  else
    match q.ldBase, adr.base with
    | some lb, some sb =>
      if lb = sb ∧ q.ldOff = adr.off ∧ q.ldOff ≠ OffsetBot then
        (if q.store_Opcode = opc then some valueIn else none)
      else none
    | _, _ => none

/-- The trip loop of `can_see_stored_value` (`for (int trip = 0; trip <= 1;
trip++)`); the fuel is the number of remaining trips.  A Store answers its
value edge; a load from a freshly-allocated object answers the zero constant
of the load's basic type; an initialization barrier chains to its captured
store (or its zero memory) for one more trip; anything else answers nothing. -/
def cssv_go (g : CGraph) (q : CLoad) : Nat → Nat → Option Nat
  | 0, _ => none
  | trips + 1, st =>
    match g.node st with
    | CNode.store opc adr valueIn => cssv_store_case q opc adr valueIn
    | CNode.allocProj a =>
      if q.ldAlloc = some a ∧ g.minHeader a ≤ q.ldOff then
        (if q.bt ≠ BT.void then
          (if g.ReduceBulkZeroing || !q.acClone then some (g.zerocon q.bt)
           else none)
         else none)
      else none
    | CNode.initProj al init zeroId =>
      match al with
      | some a =>
        if q.ldAlloc = some a then
          match find_captured_store g.ti_limit g.max_store init zeroId
              q.ldOff q.memory_size with
          | some st2 => cssv_go g q trips st2
          | none => none
        else none
      | none => none
    | CNode.conI _ => none
    | CNode.other => none

/-- `MemNode::can_see_stored_value` (with the model restrictions noted in the
section header: the membar-skipping prologue and the boxed-value branch are
dead). -/
def can_see_stored_value (g : CGraph) (q : CLoad) (st : Nat) : Option Nat :=
  cssv_go g q 2 st

/-- `phase->type` of a value node, restricted to integer values: a `ConI` has
its singleton range, anything else the full 32-bit range. -/
def ctype (g : CGraph) (v : Nat) : TypeInt :=
  match g.node v with
  | CNode.conI c => ⟨c, c⟩
  | _ => ⟨-2147483648, 2147483647⟩

/-- `Node::is_Con` for the modelled value nodes. -/
def is_Con (g : CGraph) (v : Nat) : Bool :=
  match g.node v with
  | CNode.conI _ => true
  | _ => false

/-- `LoadNode::Identity` (lines 1282-1339): if the memory input provably
defines this load's value, answer that value — except that a narrow load whose
found value does not fit its type must go through `Ideal` for truncation, and
a load with a pinned control dependency is only replaced when the value is a
constant.  `none` means the load itself is returned (no replacement; the
phi-search tail is dead under the model restrictions). -/
def LoadNode_Identity (g : CGraph) (q : CLoad) : Option Nat :=
  match can_see_stored_value g q q.memIn with
  | some value =>
    if q.memory_size < 4 ∧ higher_equal (ctype g value) q.loadType = false then
      none
    else if !q.pinned || is_Con g value then some value
    else none
  | none => none

/-- Two's-complement truncation of an integer to a 32-bit `jint`. -/
def toI32 (n : Int) : Int := (n + 2147483648) % 4294967296 - 2147483648

/-- `jint` left shift by 24 (`con << 24`), wrapping at 32 bits. -/
def jshl24 (c : Int) : Int := toI32 (c * 16777216)

/-- Arithmetic (sign-preserving) right shift of a `jint` by 24 (`>> 24`):
floor division by 2^24. -/
def jsar24 (x : Int) : Int := Int.fdiv x 16777216

/-- `con & 0xFF` on a `jint`: the low 8 bits of the two's-complement value. -/
def jand255 (c : Int) : Int := toI32 c % 256

/-- `LoadBNode::Value` (lines 2279-2291), truncation branch: when the store
seen by the load holds a constant that does not fit the byte load's type, the
result type is the constant shifted left 24 then arithmetically right 24.
`none` means the branch falls through to `LoadNode::Value`. -/
def LoadB_Value_trunc (g : CGraph) (q : CLoad) : Option TypeInt :=
  match can_see_stored_value g q q.memIn with
  | some value =>
    match g.node value with
    | CNode.conI c =>
      if higher_equal ⟨c, c⟩ q.loadType = false then
        some ⟨jsar24 (jshl24 c), jsar24 (jshl24 c)⟩
      else none
    | _ => none
  | none => none

/-- `LoadUBNode::Value` (lines 2313-2325), truncation branch: the unsigned
byte load of a non-fitting constant yields `con & 0xFF`. -/
def LoadUB_Value_trunc (g : CGraph) (q : CLoad) : Option TypeInt :=
  match can_see_stored_value g q q.memIn with
  | some value =>
    match g.node value with
    | CNode.conI c =>
      if higher_equal ⟨c, c⟩ q.loadType = false then
        some ⟨jand255 c, jand255 c⟩
      else none
    | _ => none
  | none => none

theorem jshl24_eq (c : Int) :
    jshl24 c = ((c + 128) % 256) * 16777216 - 2147483648 := by
  unfold jshl24 toI32
  have h1 : c * 16777216 + 2147483648 = 16777216 * (c + 128) := by ring
  have h2 : (4294967296 : Int) = 16777216 * 256 := by norm_num
  rw [h1, h2, Int.mul_emod_mul_of_pos (c + 128) 256 (by norm_num)]
  ring

/-- The byte-truncation `(con << 24) >> 24` computes the sign-extended low
byte of the constant. -/
theorem signed_byte_eq (c : Int) :
    jsar24 (jshl24 c) = (c + 128) % 256 - 128 := by
  rw [jshl24_eq]
  unfold jsar24
  have h : ((c + 128) % 256) * 16777216 - 2147483648 =
      ((c + 128) % 256 - 128) * 16777216 := by ring
  rw [h]
  exact Int.mul_fdiv_cancel _ (by norm_num)

/-- The unsigned byte mask `con & 0xFF` computes the low byte: congruent to
the constant modulo 256 and in `[0, 256)`. -/
theorem jand255_eq (c : Int) :
    jand255 c = c % 256 ∧ 0 ≤ jand255 c ∧ jand255 c < 256 := by
  refine ⟨?_, ?_, ?_⟩
  · unfold jand255 toI32
    rw [Int.sub_emod, Int.emod_emod_of_dvd _ (by norm_num : (256 : Int) ∣ 4294967296)]
    have h31 : (2147483648 : Int) % 256 = 0 := by norm_num
    rw [h31, sub_zero, Int.emod_emod_of_dvd _ (by norm_num : (256 : Int) ∣ 256)]
    have : c + 2147483648 = c + 256 * 8388608 := by norm_num
    rw [this, Int.add_mul_emod_self_left]
  · exact Int.emod_nonneg _ (by norm_num)
  · exact Int.emod_lt_of_pos _ (by norm_num)

/-- The graph of the C3 counterexample: a store of the integer constant 7 to
the load's own address. -/
def c3c_g : CGraph :=
  ⟨fun n => if n = 0 then CNode.store 10 ⟨5, some 2, 8⟩ 1
            else if n = 1 then CNode.conI 7
            else CNode.other,
   fun _ => 0, fun _ => 0, true, 128, 8⟩

/-- The pinned int load of the C3 counterexample. -/
def c3c_q : CLoad :=
  ⟨5, some 2, 8, none, 4, 10, ⟨-2147483648, 2147483647⟩, true, BT.int, false, 0⟩

/-- Counterexample for C3: a load with a pinned control dependency whose
defining store holds a constant is replaced by that constant by
`LoadNode::Identity` (line 1300: `!has_pinned_control_dependency() ||
value->is_Con()`), not returned unchanged. -/
theorem c3_pinned_identity_counterexample :
    c3c_q.pinned = true ∧
    can_see_stored_value c3c_g c3c_q c3c_q.memIn = some 1 ∧
    LoadNode_Identity c3c_g c3c_q = some 1 := by
  refine ⟨rfl, by decide, by decide⟩

/-- C3 (amended): a Load with a pinned control dependency is returned
unchanged by `LoadNode::Identity` unless the defining value is a constant
node: when Identity replaces a pinned load, the replacement is a constant, and
when the found value is not a constant the pinned load is returned itself. -/
theorem c3_pinned_load_identity (g : CGraph) (q : CLoad) (v : Nat)
    (hp : q.pinned = true) :
    (LoadNode_Identity g q = some v → is_Con g v = true) ∧
    (can_see_stored_value g q q.memIn = some v → is_Con g v = false →
      LoadNode_Identity g q = none) := by
  constructor
  · intro h
    unfold LoadNode_Identity at h
    cases hc : can_see_stored_value g q q.memIn with
    | none =>
      simp only [hc] at h
      exact absurd h (by simp)
    | some value =>
      simp only [hc] at h
      split at h
      · exact absurd h (by simp)
      · split at h
        · rename_i hor
          simp only [hp, Bool.not_true, Bool.false_or] at hor
          have hv : value = v := by simpa using h
          rw [← hv]
          exact hor
        · exact absurd h (by simp)
  · intro hc hnc
    unfold LoadNode_Identity
    simp only [hc]
    split
    · rfl
    · rw [hp, hnc]
      simp

/-- The graph of the second C3 witness instance: the stored value is not a
constant. -/
def c3w_g : CGraph :=
  ⟨fun n => if n = 0 then CNode.store 10 ⟨5, some 2, 8⟩ 1
            else CNode.other,
   fun _ => 0, fun _ => 0, true, 128, 8⟩

/-- Witness for C3 (amended): on the constant instance the replacement is a
constant; on the non-constant instance the pinned load is returned itself. -/
theorem c3_pinned_load_identity_witness :
    is_Con c3c_g 1 = true ∧ LoadNode_Identity c3w_g c3c_q = none :=
  ⟨(c3_pinned_load_identity c3c_g c3c_q 1 rfl).1 (by decide),
   (c3_pinned_load_identity c3w_g c3c_q 1 rfl).2 (by decide) (by decide)⟩

/-- C5: a load whose memory input is the zero-initialized state of a freshly
allocated object (the raw memory projection of the load's own allocation —
either directly, or through the allocation's initialization barrier when no
captured store covers the loaded range), at an offset at or beyond the
allocation's minimum header size, answers the zero constant of the load's
value type. -/
theorem c5_zero_object_read (g : CGraph) (q : CLoad) (a : Nat) (init : InitD)
    (zid : Nat) :
    (g.node q.memIn = CNode.allocProj a → q.ldAlloc = some a →
      g.minHeader a ≤ q.ldOff → q.bt ≠ BT.void →
      (g.ReduceBulkZeroing || !q.acClone) = true →
      can_see_stored_value g q q.memIn = some (g.zerocon q.bt)) ∧
    (g.node q.memIn = CNode.initProj (some a) init zid → q.ldAlloc = some a →
      find_captured_store g.ti_limit g.max_store init zid q.ldOff
        q.memory_size = some zid →
      g.node zid = CNode.allocProj a →
      g.minHeader a ≤ q.ldOff → q.bt ≠ BT.void →
      (g.ReduceBulkZeroing || !q.acClone) = true →
      can_see_stored_value g q q.memIn = some (g.zerocon q.bt)) := by
  have halloc : ∀ (trips : Nat) (st : Nat), g.node st = CNode.allocProj a →
      q.ldAlloc = some a → g.minHeader a ≤ q.ldOff → q.bt ≠ BT.void →
      (g.ReduceBulkZeroing || !q.acClone) = true →
      cssv_go g q (trips + 1) st = some (g.zerocon q.bt) := by
    intro trips st hnode h2 h3 h4 h5
    unfold cssv_go
    simp only [hnode]
    rw [if_pos ⟨h2, h3⟩, if_pos h4, if_pos h5]
  constructor
  · intro hnode h2 h3 h4 h5
    exact halloc 1 q.memIn hnode h2 h3 h4 h5
  · intro hnode h2 hfind hzero h3 h4 h5
    show cssv_go g q 2 q.memIn = some (g.zerocon q.bt)
    unfold cssv_go
    simp only [hnode]
    rw [if_pos h2, hfind]
    exact halloc 0 zid hzero h2 h3 h4 h5

/-- The InitializeNode of the C5 witness: incomplete, header 12, no captured
stores. -/
def c5w_init : InitD := ⟨false, 12, []⟩

/-- The graph of the C5 witness: an initialization barrier (node 0) over a
fresh allocation whose raw memory projection is node 1. -/
def c5w_g : CGraph :=
  ⟨fun n => if n = 0 then CNode.initProj (some 3) c5w_init 1
            else if n = 1 then CNode.allocProj 3
            else CNode.other,
   fun _ => 40, fun _ => 12, true, 128, 8⟩

/-- The C5 witness load reading offset 16 directly from the raw memory
projection. -/
def c5w_q1 : CLoad :=
  ⟨9, some 8, 16, some 3, 4, 10, ⟨-2147483648, 2147483647⟩, false, BT.int,
    false, 1⟩

/-- The C5 witness load reading offset 16 through the initialization
barrier. -/
def c5w_q0 : CLoad :=
  ⟨9, some 8, 16, some 3, 4, 10, ⟨-2147483648, 2147483647⟩, false, BT.int,
    false, 0⟩

/-- Witness for C5: both zero-object reads answer the shared zero constant
(node 40). -/
theorem c5_zero_object_read_witness :
    can_see_stored_value c5w_g c5w_q1 c5w_q1.memIn
        = some (c5w_g.zerocon c5w_q1.bt) ∧
    can_see_stored_value c5w_g c5w_q0 c5w_q0.memIn
        = some (c5w_g.zerocon c5w_q0.bt) :=
  ⟨(c5_zero_object_read c5w_g c5w_q1 3 c5w_init 1).1 (by decide) (by decide)
      (by decide) (by decide) (by decide),
   (c5_zero_object_read c5w_g c5w_q0 3 c5w_init 1).2 (by decide) (by decide)
      (by decide) (by decide) (by decide) (by decide) (by decide)⟩

/-- The graph of the C6 scenario: a byte store whose value edge is the int
constant 0x1234 (4660). -/
def c6w_g : CGraph :=
  ⟨fun n => if n = 0 then CNode.store 11 ⟨5, some 2, 8⟩ 1
            else if n = 1 then CNode.conI 4660
            else CNode.other,
   fun _ => 0, fun _ => 0, true, 128, 8⟩

/-- The byte load of the C6 scenario (declared type `[-128, 127]`). -/
def c6w_q : CLoad := ⟨5, some 2, 8, none, 1, 11, ⟨-128, 127⟩, false, BT.byte,
  false, 0⟩

/-- C6: truncation correctness of narrow-load forwarding.  For a byte load
whose defining store wrote a non-fitting integer constant `c`, the signed byte
load yields the constant shifted left 24 then arithmetically right 24 — the
sign-extended low byte `(c + 128) mod 256 - 128` — and the unsigned byte load
yields `c & 0xFF`, the low byte of `c`; in particular storing the int constant
0x1234 and byte-loading it yields the signed byte value 0x34 (= 52). -/
theorem c6_byte_load_truncation (g : CGraph) (q : CLoad) (v : Nat) (c : Int)
    (h1 : can_see_stored_value g q q.memIn = some v)
    (h2 : g.node v = CNode.conI c)
    (h3 : higher_equal ⟨c, c⟩ q.loadType = false) :
    LoadB_Value_trunc g q = some ⟨(c + 128) % 256 - 128, (c + 128) % 256 - 128⟩ ∧
    LoadUB_Value_trunc g q = some ⟨jand255 c, jand255 c⟩ ∧
    jand255 c = c % 256 ∧ 0 ≤ jand255 c ∧ jand255 c < 256 ∧
    LoadB_Value_trunc c6w_g c6w_q = some ⟨52, 52⟩ := by
  obtain ⟨hm, hm0, hm1⟩ := jand255_eq c
  refine ⟨?_, ?_, hm, hm0, hm1, by decide⟩
  · unfold LoadB_Value_trunc
    simp only [h1, h2]
    rw [if_pos h3, signed_byte_eq]
  · unfold LoadUB_Value_trunc
    simp only [h1, h2]
    rw [if_pos h3]

/-- Witness for C6: the 0x1234 scenario instantiates the theorem; the signed
byte load yields 52 (0x34) and the unsigned byte load yields 52. -/
theorem c6_byte_load_truncation_witness :
    LoadB_Value_trunc c6w_g c6w_q
        = some ⟨(4660 + 128) % 256 - 128, (4660 + 128) % 256 - 128⟩ ∧
    LoadUB_Value_trunc c6w_g c6w_q = some ⟨jand255 4660, jand255 4660⟩ :=
  ⟨(c6_byte_load_truncation c6w_g c6w_q 1 4660 (by decide) (by decide)
      (by decide)).1,
   (c6_byte_load_truncation c6w_g c6w_q 1 4660 (by decide) (by decide)
      (by decide)).2.1⟩
